import Mathlib

/-!
Verification of the sketch-systems-to-xstate parser (tokenizer + backtracking
recursive-descent parser), as a shallow embedding of `src/tokenizer.ts`,
`src/parser.ts`, `src/array_of_obj_to_obj.js` and `src/omit.js`.

Conventions of the embedding:
* JavaScript strings are `List Char` plus an index; `str[index]` is `List.get?`.
* The tokenizer's mutable state (index, emitted tokens, indent stack, current
  line/column) is an explicit `TState` record threaded through the main loop.
* JavaScript exceptions are `Except String`; the main character loop takes a
  fuel argument (the source program's `while` loop does not terminate on some
  inputs, e.g. a tab-indented line below an equally-indented one), and fuel
  exhaustion is reported as a distinct outcome so it can never be confused
  with a normal return.
* Token `type` is a `String`, exactly as in JavaScript; the optional `text`
  field is an `Option String`.
-/

namespace SketchSystems

/-- Token shape from `tokenizer.ts`: `{ type, line, col, text? }`. -/
structure Token where
  type : String
  line : Nat
  col : Nat
  text : Option String := none
deriving Repr, DecidableEq

/-- `identifierRegex = /[a-zA-Z0-9_\.]/` from `tokenize`. -/
def isIdentifierChar (c : Char) : Bool :=
  c.isAlpha || c.isDigit || c = '_' || c = '.'

/-- The main loop's identifier start test `/[a-zA-Z0-9_]/` (no dot). -/
def isIdentifierStart (c : Char) : Bool :=
  c.isAlpha || c.isDigit || c = '_'

/-- Mutable locals of `tokenize`: cursor, emitted tokens, indent stack
(JavaScript array order: bottom of the stack first, top is the last element),
and the running line/column counters. -/
structure TState where
  index : Nat
  tokens : List Token
  indentStack : List Nat
  currentLine : Nat
  currentCol : Nat
deriving Repr, DecidableEq

/-- `prevTokenTypeCheck(tokens, type)`:
`tokens.length > 0 && tokens[tokens.length - 1].type === type`. -/
def prevTokenTypeCheck (tokens : List Token) (type : String) : Bool :=
  match tokens.getLast? with
  | some t => t.type = type
  | none => false

/-- `addToken(type, text)`: push a token carrying the current line/column, then
advance the column by the text's length — or by 1 when there is no text or the
text is empty (JavaScript `text ? text.length : 1` is 1 for `undefined` and
for the empty string, both falsy). -/
def addToken (st : TState) (type : String) (text : Option String) : TState :=
  { st with
    tokens := st.tokens ++ [⟨type, st.currentLine, st.currentCol, text⟩],
    currentCol := st.currentCol +
      (match text with
       | some t => if t.length = 0 then 1 else t.length
       | none => 1) }

/-- `identifierToken()`: consume the maximal run of `identifierRegex` characters
starting at `i`; returns the lexeme and the new index. -/
def identifierToken (str : List Char) (i : Nat) : String × Nat :=
  let cs := (str.drop i).takeWhile isIdentifierChar
  (cs.asString, i + cs.length)

/-- `commentToken()`: consume up to (excluding) the next `'\n'`/`'\r'` or end of
input; the comment marker itself is part of the lexeme. -/
def commentToken (str : List Char) (i : Nat) : String × Nat :=
  let cs := (str.drop i).takeWhile (fun c => c ≠ '\n' && c ≠ '\r')
  (cs.asString, i + cs.length)

/-- `conditionToken()`: skip non-identifier characters (the `';'` marker and any
separators; the JavaScript loop also stops at end of input, where
`regex.test(undefined)` tests the string "undefined" and succeeds), then read an
identifier. -/
def conditionToken (str : List Char) (i : Nat) : String × Nat :=
  let skipped := (str.drop i).takeWhile (fun c => !(isIdentifierChar c))
  identifierToken str (i + skipped.length)

/-- Length of the `/ +/y` match at `i` (0 when the regex does not match). -/
def countLeadingSpaces (str : List Char) (i : Nat) : Nat :=
  ((str.drop i).takeWhile (fun c => c = ' ')).length

/-- The dedent-emitting loop of `whitespaceTokenizer`:
`while (currentIndentLevel !== indentLevelFromStack && indentStack.length > 0)`
pop the stack and emit one DEDENT token per pop. Returns the remaining stack
and the emitted tokens. The loop pops one element per iteration, so running it
with fuel equal to the stack's length (as the caller does) reproduces the
source loop exactly; the fuel-exhausted case is then the empty stack, whose
value coincides with the loop's own exit. -/
def dedentLoop (tok : Token) : Nat → List Nat → Nat → List Nat × List Token
  | 0, stack, _ => (stack, [])
  | fuel+1, stack, cur =>
    match stack with
    | [] => ([], [])
    | a :: as =>
      if (a :: as).getLastD 0 = cur then (a :: as, [])
      else
        let r := dedentLoop tok fuel (a :: as).dropLast cur
        (r.1, tok :: r.2)

/-- `whitespaceTokenizer()`. At a line start (previous token is a NEWLINE) it
measures the leading spaces and produces INDENT/DEDENT tokens, updating the
indent stack, the index and the column; a dedent to a width absent from the
stack throws `Invalid indentation`. Anywhere else it silently skips spaces and
tabs (moving the index but not the column). Returns the tokens to append and
the updated state (the caller concatenates the tokens). -/
def whitespaceTokenizer (str : List Char) (st : TState) :
    Except String (List Token × TState) :=
  if prevTokenTypeCheck st.tokens "NEWLINE" then
    let currentIndentLevel := countLeadingSpaces str st.index
    let indentText : String := (List.replicate currentIndentLevel ' ').asString
    let st := { st with
      index := st.index + currentIndentLevel,
      currentCol := currentIndentLevel + 1 }
    match st.indentStack.getLast? with
    | none =>
      -- an empty indent stack never occurs; the JavaScript comparisons with
      -- `undefined` are both false, landing in the "same level" branch
      Except.ok ([], st)
    | some prevIndentLevel =>
      if currentIndentLevel > prevIndentLevel then
        Except.ok
          ([⟨"INDENT", st.currentLine, 1, some indentText⟩],
           { st with indentStack := st.indentStack ++ [currentIndentLevel] })
      else if currentIndentLevel < prevIndentLevel then
        if st.indentStack.contains currentIndentLevel then
          let r := dedentLoop ⟨"DEDENT", st.currentLine, 1, some indentText⟩
            st.indentStack.length st.indentStack currentIndentLevel
          Except.ok (r.2, { st with indentStack := r.1 })
        else
          Except.error "Invalid indentation"
      else
        Except.ok ([], st)
  else
    let ws := (str.drop st.index).takeWhile (fun c => c = '\t' || c = ' ')
    Except.ok ([], { st with index := st.index + ws.length })

/-- Outcome of the tokenizer's character loop. -/
inductive TLoopResult where
  | done (st : TState)
  | failed (msg : String)
  | outOfFuel
deriving Repr, DecidableEq

/-- One iteration of the main `while (index < str.length)` loop of `tokenize`,
with the source's branch order: newline, comment marker, parallel/final/initial
markers, condition marker, identifier start (this test is also taken when the
whitespace step consumed up to end of input: JavaScript
`/[a-zA-Z0-9_]/.test(undefined)` stringifies `undefined` and matches, emitting
an IDENTIFIER with empty text), whitespace, arrow, unknown. -/
def loopIter (str : List Char) (st : TState) : Except String TState :=
  match whitespaceTokenizer str st with
  | Except.error e => Except.error e
  | Except.ok (ws, st1) =>
    let st2 := { st1 with tokens := st1.tokens ++ ws }
    let char := str.get? st2.index
    if char = some '\n' then
      let st3 := addToken st2 "NEWLINE" none
      Except.ok
        { st3 with
          currentLine := st3.currentLine + 1,
          currentCol := 1,
          index := st3.index + 1 }
    else if char = some '#' then
      let r := commentToken str st2.index
      Except.ok (addToken { st2 with index := r.2 } "COMMENT" (some r.1))
    else if char = some '&' then
      let st3 := addToken st2 "PARALLEL_STATE" none
      Except.ok { st3 with index := st3.index + 1 }
    else if char = some '$' then
      let st3 := addToken st2 "FINAL_STATE" none
      Except.ok { st3 with index := st3.index + 1 }
    else if char = some '*' then
      let st3 := addToken st2 "INITIAL_STATE" none
      Except.ok { st3 with index := st3.index + 1 }
    else if char = some ';' then
      let r := conditionToken str st2.index
      Except.ok (addToken { st2 with index := r.2 } "CONDITION" (some r.1))
    else if (match char with
             | some c => isIdentifierStart c
             | none => true) then
      let r := identifierToken str st2.index
      Except.ok (addToken { st2 with index := r.2 } "IDENTIFIER" (some r.1))
    else if char = some ' ' || char = some '\t' then
      match whitespaceTokenizer str st2 with
      | Except.error e => Except.error e
      | Except.ok (ws2, st3) =>
        Except.ok { st3 with tokens := st3.tokens ++ ws2 }
    else if char = some '-' && str.get? (st2.index + 1) = some '>' then
      let st3 := addToken st2 "TRANSITION_ARROW" none
      Except.ok { st3 with index := st3.index + 2 }
    else
      match char with
      | some c =>
        let st3 := addToken st2 "UNKNOWN" (some c.toString)
        Except.ok { st3 with index := st3.index + 1 }
      | none =>
        -- unreachable: `char = none` already took the identifier branch
        Except.ok st2

/-- The main loop itself: run iterations while the cursor is inside the input. -/
def mainLoop (str : List Char) : Nat → TState → TLoopResult
  | 0, _ => TLoopResult.outOfFuel
  | fuel+1, st =>
    if st.index < str.length then
      match loopIter str st with
      | Except.error e => TLoopResult.failed e
      | Except.ok st2 => mainLoop str fuel st2
    else
      TLoopResult.done st

/-- The trailing `while (indentStack.length > 1)` of `tokenize`: one DEDENT
token (with no text) per remaining stack entry above the base. Fuel equal to
the stack's length (as the caller passes) covers every run of the loop. -/
def trailingDedents (tok : Token) : Nat → List Nat → List Token
  | 0, _ => []
  | fuel+1, stack =>
    if stack.length > 1 then tok :: trailingDedents tok fuel stack.dropLast else []

/-- Result of `tokenize`: the token list, a thrown error, or divergence of the
source's loop (reported as fuel exhaustion in the embedding). -/
inductive TokResult where
  | ok (tokens : List Token)
  | error (msg : String)
  | outOfFuel
deriving Repr, DecidableEq

/-- `tokenize(str)`. Initial state: index 0, no tokens, indent stack `[0]`,
line 1, column 1. The fuel `length + 2` covers every terminating run of the
source loop (each completed iteration advances the index, except a final one
that emits an empty identifier at end of input). -/
def tokenize (s : String) : TokResult :=
  let str := s.toList
  match mainLoop str (str.length + 2) ⟨0, [], [0], 1, 1⟩ with
  | TLoopResult.failed e => TokResult.error e
  | TLoopResult.outOfFuel => TokResult.outOfFuel
  | TLoopResult.done st =>
    TokResult.ok (st.tokens ++
      trailingDedents ⟨"DEDENT", st.currentLine, st.currentCol, none⟩
        st.indentStack.length st.indentStack)

/-!
## Objects and the two pure utilities

JavaScript objects keyed by strings are association lists with unique keys.
`insertKV` is the semantics of `{...acc, [k]: v}` (and of a duplicate key in an
object literal): an existing key keeps its position and gets the new value, a
new key is appended.
-/

/-- `{...obj, [k]: v}`: update in place when the key exists, append otherwise. -/
def insertKV {α : Type} (obj : List (String × α)) (k : String) (v : α) :
    List (String × α) :=
  if (obj.map Prod.fst).contains k then
    obj.map (fun kv => if kv.1 = k then (k, v) else kv)
  else
    obj ++ [(k, v)]

/-- `obj[k]` (`undefined` when absent). -/
def lookupKV {α : Type} (obj : List (String × α)) (k : String) : Option α :=
  (obj.find? (fun kv => kv.1 = k)).map Prod.snd

/-- `{ target, cond?, actions? }` — the normalized transition object built by
the `transition` grammar rule. -/
structure TransitionObj where
  target : String
  cond : Option String := none
  actions : Option (List String) := none
deriving Repr, DecidableEq

/-- A value stored in a state's `on` object: the `'type'` tag string, one
transition object (named event), or an array of transition objects (the
accumulated transient key). -/
inductive OnVal where
  | vstr (s : String)
  | vobj (t : TransitionObj)
  | varr (l : List TransitionObj)
deriving Repr, DecidableEq

/-- The reduce callback of `arrayOfObjToObj`. An item carrying the empty-string
key has that key accumulated into an array
(`acc[''] ? acc[''].concat(item['']) : [item['']]`; note the item's other keys
are NOT merged on this branch); any other item is shallow-merged
(`{...acc, ...item}`), so an existing key is overwritten in place and a new key
appended. The wildcard fallbacks totalize cases that are unreachable for
transition items (the `''` key of an item always holds one `vobj`; an
accumulated `acc['']` is always a `varr`). -/
def mergeItem (acc item : List (String × OnVal)) : List (String × OnVal) :=
  if (item.map Prod.fst).contains "" then
    let itemEmpty : List TransitionObj :=
      match lookupKV item "" with
      | some (OnVal.vobj t) => [t]
      | _ => []
    insertKV acc ""
      (match lookupKV acc "" with
       | some (OnVal.varr l) => OnVal.varr (l ++ itemEmpty)
       | _ => OnVal.varr itemEmpty)
  else
    item.foldl (fun a kv => insertKV a kv.1 kv.2) acc

/-- `arrayOfObjToObj(arr)` from `array_of_obj_to_obj.js`: left fold of item
objects into one object. -/
def arrayOfObjToObj (arr : List (List (String × OnVal))) : List (String × OnVal) :=
  arr.foldl mergeItem []

/-- `omit(keys, obj)` from `omit.js`: entries whose key is not listed,
re-accumulated into a fresh object in order. -/
def omitKeys {α : Type} (keys : List String) (obj : List (String × α)) :
    List (String × α) :=
  (obj.filter (fun kv => !(keys.contains kv.1))).foldl
    (fun acc kv => insertKV acc kv.1 kv.2) []

/-!
## The AST

`StateNode` mirrors the parser's node objects. A child entry of `states` is
normally a state node, but the source also stores a raw transition item there
when a transition's event name is literally `type` (then the item's `.type` is
an object, the `=== 'transition'` filter sends it to `nestedStates`, and its
`.id` is `undefined`, stringified to the key `"undefined"`); `SVal` keeps both
shapes. `isInitial : Bool` models the JavaScript `true`/`undefined` marker by
its truthiness. -/

mutual
inductive StateNode where
  | mk (id : String) (type : String) (isInitial : Bool) (initial : Option String)
      (onMap : Option (List (String × OnVal)))
      (states : Option (List (String × SVal))) : StateNode
inductive SVal where
  | snode (n : StateNode) : SVal
  | sraw (item : List (String × OnVal)) : SVal
end

def StateNode.id : StateNode → String
  | StateNode.mk i _ _ _ _ _ => i

def StateNode.type : StateNode → String
  | StateNode.mk _ t _ _ _ _ => t

def StateNode.isInitial : StateNode → Bool
  | StateNode.mk _ _ b _ _ _ => b

def StateNode.initial : StateNode → Option String
  | StateNode.mk _ _ _ ini _ _ => ini

def StateNode.onMap : StateNode → Option (List (String × OnVal))
  | StateNode.mk _ _ _ _ o _ => o

def StateNode.states : StateNode → Option (List (String × SVal))
  | StateNode.mk _ _ _ _ _ s => s

/-- `v.isInitial` truthiness for a `states` entry: a raw item object has no
`isInitial` property (`undefined`, falsy). -/
def svalIsInitial : SVal → Bool
  | SVal.snode n => n.isInitial
  | SVal.sraw _ => false

/-- `withInitialState(stateInfo)` from `parser.ts`: when there are child
states, `initial` is the result of reducing the entries with "a child marked
`isInitial` wins, otherwise keep the accumulator", seeded with the first child
key. -/
def withInitialState (stateInfo : StateNode) : StateNode :=
  let nestedStates := match stateInfo.states with | some l => l | none => []
  match nestedStates with
  | [] => stateInfo
  | (k0, _) :: _ =>
    let initialStateName := nestedStates.foldl
      (fun acc kv => if svalIsInitial kv.2 then kv.1 else acc) k0
    StateNode.mk stateInfo.id stateInfo.type stateInfo.isInitial
      (some initialStateName) stateInfo.onMap stateInfo.states

/-!
## Parser combinator core

A parser is a function of the cursor. JavaScript exceptions leave the mutable
`index` wherever the failing rule moved it, so an error result also carries a
cursor; the save/restore discipline lives entirely in the three combinators.
`PErr.fuel` models a non-terminating run of the source (it is never caught —
a JavaScript execution that diverges never reaches a catch block). -/

inductive PErr where
  | perr (msg : String)
  | fuel
deriving Repr, DecidableEq

inductive PRes (α : Type) where
  | ok (a : α) (next : Nat)
  | err (e : PErr) (next : Nat)
deriving Repr

def ParserM (α : Type) := Nat → PRes α

def ppure {α : Type} (a : α) : ParserM α := fun i => PRes.ok a i

def pbind {α β : Type} (p : ParserM α) (f : α → ParserM β) : ParserM β := fun i =>
  match p i with
  | PRes.ok a j => f a j
  | PRes.err e j => PRes.err e j

instance : Monad ParserM where
  pure := ppure
  bind := pbind

/-- `oneOrAnother(...args)`: try each parser at the saved entry position; a
caught failure restarts the next alternative at that same position; when every
alternative fails the combinator fails at the entry position. -/
def oneOrAnother {α : Type} (ps : List (ParserM α)) : ParserM α := fun i =>
  match ps with
  | [] => PRes.err (PErr.perr "oneOrAnother parser: matched none of the rules") i
  | p :: rest =>
    match p i with
    | PRes.ok a j => PRes.ok a j
    | PRes.err (PErr.perr _) _ => oneOrAnother rest i
    | PRes.err PErr.fuel j => PRes.err PErr.fuel j

/-- `zeroOrOne(fn)`: a singleton on success, the empty list (cursor restored to
the entry position) on a caught failure. -/
def zeroOrOne {α : Type} (fn : ParserM α) : ParserM (List α) := fun i =>
  match fn i with
  | PRes.ok a j => PRes.ok [a] j
  | PRes.err (PErr.perr _) _ => PRes.ok [] i
  | PRes.err PErr.fuel j => PRes.err PErr.fuel j

/-- `zeroOrMore(fn)`: collect successes until the first caught failure, whose
attempt's entry position becomes the final cursor. The source's `while (true)`
gets a fuel bound (it diverges when `fn` succeeds without consuming, which no
grammar rule does). -/
def zeroOrMore {α : Type} (fuel : Nat) (fn : ParserM α) : ParserM (List α) := fun i =>
  match fuel with
  | 0 => PRes.err PErr.fuel i
  | fuel+1 =>
    match fn i with
    | PRes.ok a j =>
      match zeroOrMore fuel fn j with
      | PRes.ok as k => PRes.ok (a :: as) k
      | PRes.err e k => PRes.err e k
    | PRes.err (PErr.perr _) _ => PRes.ok [] i
    | PRes.err PErr.fuel j => PRes.err PErr.fuel j

/-!
## Grammar rules

Terminal consumers come in the two source shapes: peek-first
(`tokens[index].type === ...` — the cursor does not move on failure; out of
range throws before consuming) and consume-first (`consume().type === ...` —
the cursor moves even on failure). -/

/-- `identifier()`: peek-first; on success `consume().text || 'id'` (the
default fires for a missing and for an empty text, both falsy). -/
def identifier (ts : List Token) : ParserM String := fun i =>
  match ts.get? i with
  | some t =>
    if t.type = "IDENTIFIER" then
      PRes.ok
        (match t.text with
         | some s => if s.length = 0 then "id" else s
         | none => "id") (i+1)
    else PRes.err (PErr.perr "Could not find IDENTIFIER") i
  | none => PRes.err (PErr.perr "TypeError: tokens index out of range") i

/-- `condition()`: peek-first; returns the token text (always present on a
CONDITION token, possibly empty — the embedding defaults a missing text to the
empty string). -/
def condition (ts : List Token) : ParserM String := fun i =>
  match ts.get? i with
  | some t =>
    if t.type = "CONDITION" then PRes.ok (t.text.getD "") (i+1)
    else PRes.err (PErr.perr "Could not find CONDITION identifier") i
  | none => PRes.err (PErr.perr "TypeError: tokens index out of range") i

/-- `parallelState()`: consume-first. -/
def parallelState (ts : List Token) : ParserM Bool := fun i =>
  match ts.get? i with
  | some t =>
    if t.type = "PARALLEL_STATE" then PRes.ok true (i+1)
    else PRes.err (PErr.perr "Expected PARALLEL_STATE") (i+1)
  | none => PRes.err (PErr.perr "TypeError: tokens index out of range") (i+1)

/-- `finalState()`: consume-first (the source's error message is a copy-paste
of the parallel one). -/
def finalState (ts : List Token) : ParserM Bool := fun i =>
  match ts.get? i with
  | some t =>
    if t.type = "FINAL_STATE" then PRes.ok true (i+1)
    else PRes.err (PErr.perr "Expected PARALLEL_STATE") (i+1)
  | none => PRes.err (PErr.perr "TypeError: tokens index out of range") (i+1)

/-- `initialState()`: consume-first. -/
def initialState (ts : List Token) : ParserM Bool := fun i =>
  match ts.get? i with
  | some t =>
    if t.type = "INITIAL_STATE" then PRes.ok true (i+1)
    else PRes.err (PErr.perr "Expected PARALLEL_STATE") (i+1)
  | none => PRes.err (PErr.perr "TypeError: tokens index out of range") (i+1)

/-- `indent()`: consume-first. -/
def indent (ts : List Token) : ParserM Bool := fun i =>
  match ts.get? i with
  | some t =>
    if t.type = "INDENT" then PRes.ok true (i+1)
    else PRes.err (PErr.perr "Expected indent") (i+1)
  | none => PRes.err (PErr.perr "TypeError: tokens index out of range") (i+1)

/-- `dedent()`: consume-first. -/
def dedent (ts : List Token) : ParserM Bool := fun i =>
  match ts.get? i with
  | some t =>
    if t.type = "DEDENT" then PRes.ok true (i+1)
    else PRes.err (PErr.perr "Expected dedent") (i+1)
  | none => PRes.err (PErr.perr "TypeError: tokens index out of range") (i+1)

/-- `arrow()`: consume-first. -/
def arrow (ts : List Token) : ParserM Bool := fun i =>
  match ts.get? i with
  | some t =>
    if t.type = "TRANSITION_ARROW" then PRes.ok true (i+1)
    else PRes.err (PErr.perr "expected transition arrow") (i+1)
  | none => PRes.err (PErr.perr "TypeError: tokens index out of range") (i+1)

/-- `actions()`: peek-first; the tokenizer never emits an `ACTION` token, so
this rule fails on every token of a real stream. -/
def actions (ts : List Token) : ParserM String := fun i =>
  match ts.get? i with
  | some t =>
    if t.type = "ACTION" then PRes.ok (t.text.getD "") (i+1)
    else PRes.err (PErr.perr "Could not find ACTIONS identifier") i
  | none => PRes.err (PErr.perr "TypeError: tokens index out of range") i

/-- `transition()` as the pair (event name, transition object); the event name
is empty for a transient transition, in which case the condition is mandatory.
`cond` keeps the head of the zero-or-one condition list and `actions` is
present only when nonempty, exactly like the source's conditional object. -/
def transition (ts : List Token) (fuel : Nat) : ParserM (String × TransitionObj) := do
  let eventNames ← zeroOrOne (identifier ts)
  let eventName := match eventNames with | e :: _ => e | [] => ""
  let _ ← arrow ts
  let stateName ← identifier ts
  let (conditionName, actionNames) ←
    if eventName ≠ "" then do
      let conditionName ← zeroOrOne (condition ts)
      let actionNames ← zeroOrMore fuel (actions ts)
      ppure (conditionName, actionNames)
    else do
      let c ← condition ts
      let actionNames ← zeroOrMore fuel (actions ts)
      ppure ([c], actionNames)
  ppure (eventName,
    if conditionName.length > 0 || actionNames.length > 0 then
      { target := stateName,
        cond := conditionName.head?,
        actions := if actionNames.length > 0 then some actionNames else none }
    else { target := stateName })

/-- The object literal `{ type: 'transition', [eventName]: v }` built by
`transition()`: a duplicate key (event named `type`) overwrites the tag in
place, leaving a single-key object. -/
def mkTransitionItem (eventName : String) (t : TransitionObj) : List (String × OnVal) :=
  insertKV (insertKV [] "type" (OnVal.vstr "transition")) eventName (OnVal.vobj t)

/-- An element of `transitionsAndStates`: the JavaScript list mixes transition
items and state nodes, discriminated by their `.type` property. -/
inductive TS where
  | tstate (n : StateNode)
  | ttrans (eventName : String) (t : TransitionObj)

/-- `ts.type === 'transition'`: a transition item's `.type` is the tag string
unless the event name collided with the `type` key (then it is an object); a
state node's `.type` is its classification string. -/
def tsTypeIsTransition : TS → Bool
  | TS.ttrans e _ => decide (e ≠ "type")
  | TS.tstate n => n.type = "transition"

/-- `ns.id` used as a `states` key: a transition item has no `id` property, so
the key is the stringified `undefined`. -/
def tsId : TS → String
  | TS.tstate n => n.id
  | TS.ttrans _ _ => "undefined"

/-- The value stored under that key. -/
def tsSVal : TS → SVal
  | TS.tstate n => SVal.snode n
  | TS.ttrans e t => SVal.sraw (mkTransitionItem e t)

/-- The item object fed to `arrayOfObjToObj`; the state-node case never occurs
in the `transitions` list (a parsed node's `type` is never `'transition'`). -/
def tsItemObj : TS → List (String × OnVal)
  | TS.ttrans e t => mkTransitionItem e t
  | TS.tstate _ => []

/-- `stateWithNameOnly()`: name plus optional markers; classification checks
the parallel marker first, then the final marker. -/
def stateWithNameOnly (ts : List Token) : ParserM StateNode := do
  let stateName ← identifier ts
  let parallel ← zeroOrOne (parallelState ts)
  let isFinal ← zeroOrOne (finalState ts)
  let isInitial ← zeroOrOne (initialState ts)
  ppure (StateNode.mk stateName
    (if parallel.length > 0 then "parallel"
     else if isFinal.length > 0 then "final"
     else "atomic")
    (isInitial.length > 0) none none none)

mutual

/-- `stateWithMoreDetails()`: name, optional markers, then an optional indented
body of transitions and nested states followed by any number of dedents.
Classification: parallel marker first, then final marker, then compound when a
nested state was collected, else atomic. `on` merges the transition items;
`states` folds the nested entries keyed by `.id`. -/
def stateWithMoreDetails (ts : List Token) : Nat → ParserM StateNode
  | 0 => fun i => PRes.err PErr.fuel i
  | fuel+1 => do
    let stateName ← identifier ts
    let parallel ← zeroOrOne (parallelState ts)
    let isFinal ← zeroOrOne (finalState ts)
    let isInitial ← zeroOrOne (initialState ts)
    let isIndentThere ← zeroOrOne (indent ts)
    let transitionsAndStates ←
      if isIndentThere.length > 0 then do
        let tas ← zeroOrMore (fuel+1) (oneOrAnother
          [(do
              let p ← transition ts (fuel+1)
              ppure (TS.ttrans p.1 p.2)),
           (do
              let n ← stateParser ts fuel
              ppure (TS.tstate n))])
        let _ ← zeroOrMore (fuel+1) (dedent ts)
        ppure tas
      else ppure ([] : List TS)
    let transitions := transitionsAndStates.filter tsTypeIsTransition
    let nestedStates := transitionsAndStates.filter (fun x => !(tsTypeIsTransition x))
    ppure (StateNode.mk stateName
      (if parallel.length > 0 then "parallel"
       else if isFinal.length > 0 then "final"
       else if nestedStates.length > 0 then "compound"
       else "atomic")
      (isInitial.length > 0)
      none
      (if transitions.length > 0 then
         some (omitKeys ["type"] (arrayOfObjToObj (transitions.map tsItemObj)))
       else none)
      (if nestedStates.length > 0 then
         some (nestedStates.foldl (fun acc ns => insertKV acc (tsId ns) (tsSVal ns)) [])
       else none))

/-- `stateParser()`: detailed state first, bare state second, then the
`withInitialState` augmentation. A failure is rethrown unchanged. -/
def stateParser (ts : List Token) : Nat → ParserM StateNode
  | 0 => fun i => PRes.err PErr.fuel i
  | fuel+1 => fun i =>
    match oneOrAnother [stateWithMoreDetails ts fuel, stateWithNameOnly ts] i with
    | PRes.ok stateInfo j => PRes.ok (withInitialState stateInfo) j
    | PRes.err e j => PRes.err e j

end

/-- The overall result of `parse`: a machine, the returned `{ error }` object,
an exception escaping `tokenize`, or divergence (fuel exhaustion). -/
inductive ParseResult where
  | success (m : StateNode)
  | errorResult (msg : String)
  | thrown (msg : String)
  | outOfFuel

/-- `stateMachine()`: run `stateParser` from position 0; on success rebuild
`{ id, initial, ...parserOutput }` — the spread puts the parser's own `initial`
(when its key exists, i.e. when there are child states) over the locally
computed first-child fallback. -/
def stateMachine (ts : List Token) (fuel : Nat) : ParseResult :=
  match stateParser ts fuel 0 with
  | PRes.ok parserOutput _ =>
    let initial0 : Option String :=
      match parserOutput.states with
      | some l => (l.map Prod.fst).head?
      | none => none
    ParseResult.success (StateNode.mk parserOutput.id parserOutput.type
      parserOutput.isInitial
      (match parserOutput.initial with | some x => some x | none => initial0)
      parserOutput.onMap parserOutput.states)
  | PRes.err (PErr.perr m) _ => ParseResult.errorResult m
  | PRes.err PErr.fuel _ => ParseResult.outOfFuel

/-- `parse(inputStr)`: tokenize (a thrown indentation error propagates out
unchanged), drop COMMENT and NEWLINE tokens, and run the state machine rule.
The fuel bound covers every terminating run (each nesting level and each
repetition step consumes at least one token). -/
def parse (s : String) : ParseResult :=
  match tokenize s with
  | TokResult.error e => ParseResult.thrown e
  | TokResult.outOfFuel => ParseResult.outOfFuel
  | TokResult.ok allTokens =>
    let ts := allTokens.filter (fun t => t.type ≠ "COMMENT" && t.type ≠ "NEWLINE")
    stateMachine ts (ts.length + 2)

/-!
## Observation helpers used in statements
-/

/-- Number of tokens of a given type in a token list. -/
def countTokens (ts : List Token) (ty : String) : Nat :=
  (ts.filter (fun t => t.type = ty)).length

/-- Does the token at position `i` exist and have the given type? -/
def tokHasType (ts : List Token) (i : Nat) (ty : String) : Bool :=
  match ts.get? i with
  | some t => t.type = ty
  | none => false

/-- The `on` object a state builds from its transition list (event name,
transition object) pairs: `omit(['type'], arrayOfObjToObj(transitions))`. -/
def onObjOf (pairs : List (String × TransitionObj)) : List (String × OnVal) :=
  omitKeys ["type"] (arrayOfObjToObj (pairs.map (fun p => mkTransitionItem p.1 p.2)))

/-!
## Dedent-loop and trailing-dedent lemmas
-/

theorem dedentLoop_lengths (tok : Token) :
    ∀ (fuel : Nat) (stack : List Nat) (cur : Nat), stack.length ≤ fuel →
      (dedentLoop tok fuel stack cur).1.length
        + (dedentLoop tok fuel stack cur).2.length = stack.length := by
  intro fuel
  induction fuel with
  | zero =>
    intro stack cur hle
    rw [List.length_eq_zero.mp (Nat.le_zero.mp hle)]
    simp [dedentLoop]
  | succ fuel ih =>
    intro stack cur hle
    match stack with
    | [] => simp [dedentLoop]
    | a :: as =>
      rw [dedentLoop]
      split
      · rfl
      · have := ih (a :: as).dropLast cur
          (by simp only [List.length_dropLast, List.length_cons] at hle ⊢; omega)
        simp only [List.length_dropLast, List.length_cons] at this ⊢
        omega

theorem dedentLoop_mem (tok : Token) :
    ∀ (fuel : Nat) (stack : List Nat) (cur : Nat),
      ∀ x ∈ (dedentLoop tok fuel stack cur).2, x = tok := by
  intro fuel
  induction fuel with
  | zero => intro stack cur x hx; simp [dedentLoop] at hx
  | succ fuel ih =>
    intro stack cur x hx
    match stack with
    | [] => simp [dedentLoop] at hx
    | a :: as =>
      rw [dedentLoop] at hx
      split at hx
      · cases hx
      · rcases List.mem_cons.mp hx with rfl | hx
        · rfl
        · exact ih _ _ x hx

theorem dedentLoop_ne_nil (tok : Token) :
    ∀ (fuel : Nat) (stack : List Nat) (cur : Nat), stack.length ≤ fuel →
      cur ∈ stack → (dedentLoop tok fuel stack cur).1 ≠ [] := by
  intro fuel
  induction fuel with
  | zero =>
    intro stack cur hle hmem
    rw [List.length_eq_zero.mp (Nat.le_zero.mp hle)] at hmem
    cases hmem
  | succ fuel ih =>
    intro stack cur hle hmem
    match stack with
    | [] => cases hmem
    | a :: as =>
      rw [dedentLoop]
      split
      · simp
      case isFalse h =>
        apply ih _ _ (by simp only [List.length_dropLast, List.length_cons] at hle ⊢; omega)
        have hsplit : a :: as = (a :: as).dropLast ++ [(a :: as).getLast (by simp)] :=
          (List.dropLast_append_getLast (by simp)).symm
        have hlast : (a :: as).getLastD 0 = (a :: as).getLast (by simp) := by
          rw [List.getLastD_eq_getLast?, List.getLast?_eq_getLast (a :: as) (by simp)]
          rfl
        rcases List.mem_append.mp (hsplit ▸ hmem) with h1 | h1
        · exact h1
        · exact (h (hlast.trans (List.mem_singleton.mp h1).symm)).elim

theorem dedentLoop_count_sorted (tok : Token) :
    ∀ (fuel : Nat) (stack : List Nat) (cur : Nat), stack.length ≤ fuel →
      List.Sorted (· < ·) stack → cur ∈ stack →
      (dedentLoop tok fuel stack cur).2.length
        = stack.countP (fun n => decide (cur < n)) := by
  intro fuel
  induction fuel with
  | zero =>
    intro stack cur hle hsorted hmem
    rw [List.length_eq_zero.mp (Nat.le_zero.mp hle)] at hmem
    cases hmem
  | succ fuel ih =>
    intro stack cur hle hsorted hmem
    match stack with
    | [] => cases hmem
    | a :: as =>
      have hsplit : a :: as = (a :: as).dropLast ++ [(a :: as).getLast (by simp)] :=
        (List.dropLast_append_getLast (by simp)).symm
      have hlast : (a :: as).getLastD 0 = (a :: as).getLast (by simp) := by
        rw [List.getLastD_eq_getLast?, List.getLast?_eq_getLast (a :: as) (by simp)]
        rfl
      have hpair := hsplit ▸ hsorted
      rw [dedentLoop]
      split
      case isTrue heq =>
        symm
        simp only [List.length_nil, List.countP_eq_zero]
        intro x hx
        rcases List.mem_append.mp (hsplit ▸ hx) with h1 | h1
        · have := (List.pairwise_append.mp hpair).2.2 x h1
            ((a :: as).getLast (by simp)) (by simp)
          simp only [decide_eq_true_eq]
          rw [← heq, hlast]
          omega
        · simp only [List.mem_singleton] at h1
          subst h1
          simp only [decide_eq_true_eq]
          rw [← heq, hlast]
          omega
      case isFalse h =>
        have hsorted' : List.Sorted (· < ·) (a :: as).dropLast :=
          hsorted.sublist (List.dropLast_sublist _)
        have hmem' : cur ∈ (a :: as).dropLast := by
          rcases List.mem_append.mp (hsplit ▸ hmem) with h1 | h1
          · exact h1
          · exact (h (hlast.trans (List.mem_singleton.mp h1).symm)).elim
        have hlt : cur < (a :: as).getLast (by simp) :=
          (List.pairwise_append.mp hpair).2.2 cur hmem' _ (by simp)
        have hle' : (a :: as).dropLast.length ≤ fuel := by
          simp only [List.length_dropLast, List.length_cons] at hle ⊢
          omega
        calc (tok :: (dedentLoop tok fuel (a :: as).dropLast cur).2).length
            = (dedentLoop tok fuel (a :: as).dropLast cur).2.length + 1 := by
              simp [Nat.add_comm]
          _ = (a :: as).dropLast.countP (fun n => decide (cur < n)) + 1 :=
              by rw [ih _ _ hle' hsorted' hmem']
          _ = (a :: as).countP (fun n => decide (cur < n)) := by
              conv_rhs => rw [hsplit]
              rw [List.countP_append]
              simp [hlt]

theorem trailingDedents_length (tok : Token) :
    ∀ (fuel : Nat) (stack : List Nat), stack.length ≤ fuel + 1 →
      (trailingDedents tok fuel stack).length = stack.length - 1 := by
  intro fuel
  induction fuel with
  | zero =>
    intro stack hle
    rw [trailingDedents]
    simp only [List.length_nil]
    omega
  | succ fuel ih =>
    intro stack hle
    rw [trailingDedents]
    split
    case isTrue hgt =>
      have := ih stack.dropLast
        (by simp only [List.length_dropLast]; omega)
      simp only [List.length_dropLast] at this
      simp only [List.length_cons, this]
      omega
    case isFalse hle2 =>
      simp only [List.length_nil]
      omega

theorem trailingDedents_mem (tok : Token) :
    ∀ (fuel : Nat) (stack : List Nat),
      ∀ x ∈ trailingDedents tok fuel stack, x = tok := by
  intro fuel
  induction fuel with
  | zero => intro stack x hx; simp [trailingDedents] at hx
  | succ fuel ih =>
    intro stack x hx
    rw [trailingDedents] at hx
    split at hx
    · rcases List.mem_cons.mp hx with rfl | hx
      · rfl
      · exact ih _ x hx
    · cases hx

/-!
## Token-counting lemmas
-/

theorem countTokens_append (a b : List Token) (ty : String) :
    countTokens (a ++ b) ty = countTokens a ty + countTokens b ty := by
  simp [countTokens, List.filter_append]

theorem countTokens_all (l : List Token) (ty : String)
    (h : ∀ x ∈ l, x.type = ty) : countTokens l ty = l.length := by
  unfold countTokens
  rw [List.filter_length_eq_length.mpr]
  intro x hx
  simp [h x hx]

theorem countTokens_none (l : List Token) (ty : String)
    (h : ∀ x ∈ l, x.type ≠ ty) : countTokens l ty = 0 := by
  unfold countTokens
  simp only [List.length_eq_zero, List.filter_eq_nil_iff]
  intro x hx
  simp [h x hx]

theorem countTokens_single (t : Token) (ty : String) :
    countTokens [t] ty = if t.type = ty then 1 else 0 := by
  by_cases h : t.type = ty <;> simp [countTokens, h]

/-!
## Whitespace-tokenizer and loop-step lemmas
-/

theorem whitespaceTokenizer_ok_spec (str : List Char) (st : TState)
    (toks : List Token) (st1 : TState)
    (h : whitespaceTokenizer str st = Except.ok (toks, st1)) :
    st1.tokens = st.tokens
  ∧ st1.currentLine = st.currentLine
  ∧ (st1.currentCol = st.currentCol ∨ 1 ≤ st1.currentCol)
  ∧ countTokens toks "INDENT" + st.indentStack.length
      = countTokens toks "DEDENT" + st1.indentStack.length
  ∧ (∀ t ∈ toks, (t.type = "INDENT" ∨ t.type = "DEDENT")
      ∧ t.line = st.currentLine ∧ t.col = 1)
  ∧ (st.indentStack ≠ [] → st1.indentStack ≠ [])
  ∧ (st.tokens = [] → toks = []) := by
  unfold whitespaceTokenizer at h
  split at h
  case isFalse hprev =>
    rw [Except.ok.injEq, Prod.mk.injEq] at h
    obtain ⟨rfl, rfl⟩ := h
    refine ⟨rfl, rfl, Or.inl rfl, by simp [countTokens], by simp, fun hx => hx, fun _ => rfl⟩
  case isTrue hprev =>
    have hne : st.tokens ≠ [] := by
      intro hx
      rw [hx] at hprev
      simp [prevTokenTypeCheck] at hprev
    dsimp only at h
    split at h
    case h_1 hlastnone =>
      rw [Except.ok.injEq, Prod.mk.injEq] at h
      obtain ⟨rfl, rfl⟩ := h
      exact ⟨rfl, rfl, Or.inr (by simp), by simp [countTokens], by simp,
        fun hx => hx, fun hx => absurd hx hne⟩
    case h_2 prev hlastsome =>
      split at h
      case isTrue hgt =>
        rw [Except.ok.injEq, Prod.mk.injEq] at h
        obtain ⟨rfl, rfl⟩ := h
        refine ⟨rfl, rfl, Or.inr (by simp), ?_, ?_, ?_, fun hx => absurd hx hne⟩
        · simp [countTokens]
          omega
        · intro t ht
          rcases List.mem_singleton.mp ht with rfl
          exact ⟨Or.inl rfl, rfl, rfl⟩
        · intro _
          simp
      case isFalse hgt =>
        split at h
        case isTrue hlt =>
          split at h
          case isTrue hcont =>
            rw [Except.ok.injEq, Prod.mk.injEq] at h
            obtain ⟨rfl, rfl⟩ := h
            have hmem : countLeadingSpaces str st.index ∈ st.indentStack := by
              simpa using hcont
            have hlen := dedentLoop_lengths
              ⟨"DEDENT", st.currentLine, 1,
                some (List.replicate (countLeadingSpaces str st.index) ' ').asString⟩
              st.indentStack.length st.indentStack (countLeadingSpaces str st.index)
              (le_refl _)
            have hmemtok := dedentLoop_mem
              ⟨"DEDENT", st.currentLine, 1,
                some (List.replicate (countLeadingSpaces str st.index) ' ').asString⟩
              st.indentStack.length st.indentStack (countLeadingSpaces str st.index)
            refine ⟨rfl, rfl, Or.inr (by simp), ?_, ?_, ?_, fun hx => absurd hx hne⟩
            · have hD := countTokens_all
                ((dedentLoop ⟨"DEDENT", st.currentLine, 1,
                  some (List.replicate (countLeadingSpaces str st.index) ' ').asString⟩
                  st.indentStack.length st.indentStack (countLeadingSpaces str st.index)).2)
                "DEDENT" (fun x hx => by rw [hmemtok x hx])
              have hI := countTokens_none
                ((dedentLoop ⟨"DEDENT", st.currentLine, 1,
                  some (List.replicate (countLeadingSpaces str st.index) ' ').asString⟩
                  st.indentStack.length st.indentStack (countLeadingSpaces str st.index)).2)
                "INDENT" (fun x hx => by rw [hmemtok x hx]; simp)
              rw [hI, hD]
              dsimp only
              omega
            · intro t ht
              simp [hmemtok t ht]
            · intro _
              exact dedentLoop_ne_nil _ _ _ _ (le_refl _) hmem
          case isFalse hcont => cases h
        case isFalse hlt =>
          rw [Except.ok.injEq, Prod.mk.injEq] at h
          obtain ⟨rfl, rfl⟩ := h
          exact ⟨rfl, rfl, Or.inr (by simp), by simp [countTokens], by simp,
            fun hx => hx, fun hx => absurd hx hne⟩

theorem whitespaceTokenizer_invalid (str : List Char) (st : TState)
    (hprev : prevTokenTypeCheck st.tokens "NEWLINE" = true)
    (prev : Nat) (hlast : st.indentStack.getLast? = some prev)
    (hlt : countLeadingSpaces str st.index < prev)
    (hnc : st.indentStack.contains (countLeadingSpaces str st.index) = false) :
    whitespaceTokenizer str st = Except.error "Invalid indentation" := by
  unfold whitespaceTokenizer
  rw [if_pos hprev]
  have hgt : ¬ countLeadingSpaces str st.index > prev := by omega
  simp only [hlast, hgt, hlt, hnc, if_false, if_true, if_pos, if_neg, Bool.false_eq_true]

theorem addToken_tokens (st : TState) (ty : String) (txt : Option String) :
    (addToken st ty txt).tokens
      = st.tokens ++ [⟨ty, st.currentLine, st.currentCol, txt⟩] := rfl

theorem addToken_stack (st : TState) (ty : String) (txt : Option String) :
    (addToken st ty txt).indentStack = st.indentStack := rfl

theorem addToken_line (st : TState) (ty : String) (txt : Option String) :
    (addToken st ty txt).currentLine = st.currentLine := rfl

theorem loopIter_balance (str : List Char) (st st2 : TState)
    (h : loopIter str st = Except.ok st2)
    (h1 : countTokens st.tokens "INDENT" + 1
        = countTokens st.tokens "DEDENT" + st.indentStack.length)
    (h2 : st.indentStack ≠ []) :
    countTokens st2.tokens "INDENT" + 1
      = countTokens st2.tokens "DEDENT" + st2.indentStack.length
  ∧ st2.indentStack ≠ [] := by
  unfold loopIter at h
  rcases hws : whitespaceTokenizer str st with e | ⟨ws, st1⟩
  · rw [hws] at h; cases h
  · rw [hws] at h
    dsimp only at h
    obtain ⟨hT, hL, hC, hCount, hMem, hNe, hNil⟩ :=
      whitespaceTokenizer_ok_spec str st ws st1 hws
    have haux : ∀ (ty : String) (txt : Option String) (stx : TState),
        ty ≠ "INDENT" → ty ≠ "DEDENT" →
        stx.tokens = st1.tokens ++ ws → stx.currentLine = st1.currentLine →
        stx.indentStack = st1.indentStack →
        countTokens (addToken stx ty txt).tokens "INDENT" + 1
          = countTokens (addToken stx ty txt).tokens "DEDENT"
            + (addToken stx ty txt).indentStack.length := by
      intro ty txt stx hI hD hx hlx hsx
      rw [addToken_tokens, addToken_stack, hx, hT, hsx]
      rw [countTokens_append, countTokens_append, countTokens_append,
        countTokens_append, countTokens_single, countTokens_single]
      dsimp only
      rw [if_neg hI, if_neg hD]
      omega
    by_cases hc1 : str.get? st1.index = some '\n'
    · rw [if_pos hc1] at h
      cases h
      exact ⟨haux _ _ _ (by decide) (by decide) rfl rfl rfl, hNe h2⟩
    rw [if_neg hc1] at h
    by_cases hc2 : str.get? st1.index = some '#'
    · rw [if_pos hc2] at h
      cases h
      exact ⟨haux _ _ _ (by decide) (by decide) rfl rfl rfl, hNe h2⟩
    rw [if_neg hc2] at h
    by_cases hc3 : str.get? st1.index = some '&'
    · rw [if_pos hc3] at h
      cases h
      exact ⟨haux _ _ _ (by decide) (by decide) rfl rfl rfl, hNe h2⟩
    rw [if_neg hc3] at h
    by_cases hc4 : str.get? st1.index = some '$'
    · rw [if_pos hc4] at h
      cases h
      exact ⟨haux _ _ _ (by decide) (by decide) rfl rfl rfl, hNe h2⟩
    rw [if_neg hc4] at h
    by_cases hc5 : str.get? st1.index = some '*'
    · rw [if_pos hc5] at h
      cases h
      exact ⟨haux _ _ _ (by decide) (by decide) rfl rfl rfl, hNe h2⟩
    rw [if_neg hc5] at h
    by_cases hc6 : str.get? st1.index = some ';'
    · rw [if_pos hc6] at h
      cases h
      exact ⟨haux _ _ _ (by decide) (by decide) rfl rfl rfl, hNe h2⟩
    rw [if_neg hc6] at h
    by_cases hc7 : (match str.get? st1.index with
                    | some c => isIdentifierStart c
                    | none => true) = true
    · rw [if_pos hc7] at h
      cases h
      exact ⟨haux _ _ _ (by decide) (by decide) rfl rfl rfl, hNe h2⟩
    rw [if_neg hc7] at h
    by_cases hc8 : (str.get? st1.index = some ' ' || str.get? st1.index = some '\t') = true
    · rw [if_pos hc8] at h
      rcases hws2 : whitespaceTokenizer str
          { st1 with tokens := st1.tokens ++ ws } with e | ⟨ws2, st3⟩
      · rw [hws2] at h; cases h
      · rw [hws2] at h
        dsimp only at h
        cases h
        obtain ⟨hT2, hL2, hC2, hCount2, hMem2, hNe2, hNil2⟩ :=
          whitespaceTokenizer_ok_spec str _ ws2 st3 hws2
        refine ⟨?_, fun hx => hNe2 (by simpa using hNe h2) hx⟩
        rw [hT2]
        dsimp only at hCount2 ⊢
        simp only [countTokens_append, hT]
        omega
    rw [if_neg hc8] at h
    by_cases hc9 : (str.get? st1.index = some '-'
        && str.get? (st1.index + 1) = some '>') = true
    · rw [if_pos hc9] at h
      cases h
      exact ⟨haux _ _ _ (by decide) (by decide) rfl rfl rfl, hNe h2⟩
    rw [if_neg hc9] at h
    rcases hchar : str.get? st1.index with _ | c
    · rw [hchar] at hc7
      exact absurd rfl hc7
    · rw [hchar] at h
      dsimp only at h
      cases h
      exact ⟨haux _ _ _ (by decide) (by decide) rfl rfl rfl, hNe h2⟩

theorem addToken_col_ge (stx : TState) (ty : String) (txt : Option String)
    (h : 1 ≤ stx.currentCol) : 1 ≤ (addToken stx ty txt).currentCol :=
  le_trans h (Nat.le_add_right _ _)

theorem loopIter_linecol (str : List Char) (st st2 : TState)
    (h : loopIter str st = Except.ok st2)
    (hL1 : 1 ≤ st.currentLine) (hC1 : 1 ≤ st.currentCol)
    (hTok : ∀ t ∈ st.tokens, 1 ≤ t.line ∧ 1 ≤ t.col) :
    1 ≤ st2.currentLine ∧ 1 ≤ st2.currentCol
  ∧ ∀ t ∈ st2.tokens, 1 ≤ t.line ∧ 1 ≤ t.col := by
  unfold loopIter at h
  rcases hws : whitespaceTokenizer str st with e | ⟨ws, st1⟩
  · rw [hws] at h; cases h
  · rw [hws] at h
    dsimp only at h
    obtain ⟨hT, hL, hC, hCount, hMem, hNe, hNil⟩ :=
      whitespaceTokenizer_ok_spec str st ws st1 hws
    have hCol1 : 1 ≤ st1.currentCol := by
      rcases hC with hC | hC
      · omega
      · exact hC
    have hLine1 : 1 ≤ st1.currentLine := by rw [hL]; exact hL1
    have htoks : ∀ (extra : List Token),
        (∀ t ∈ extra, 1 ≤ t.line ∧ 1 ≤ t.col) →
        ∀ t ∈ st1.tokens ++ ws ++ extra, 1 ≤ t.line ∧ 1 ≤ t.col := by
      intro extra hextra t ht
      rcases List.mem_append.mp ht with ht | ht
      · rcases List.mem_append.mp ht with ht | ht
        · exact hTok t (hT ▸ ht)
        · obtain ⟨_, hline, hcol⟩ := hMem t ht
          rw [hline, hcol]
          exact ⟨hL1, le_refl 1⟩
      · exact hextra t ht
    have haux : ∀ (ty : String) (txt : Option String) (stx : TState),
        stx.tokens = st1.tokens ++ ws → stx.currentLine = st1.currentLine →
        stx.currentCol = st1.currentCol →
        1 ≤ (addToken stx ty txt).currentLine
      ∧ 1 ≤ (addToken stx ty txt).currentCol
      ∧ ∀ t ∈ (addToken stx ty txt).tokens, 1 ≤ t.line ∧ 1 ≤ t.col := by
      intro ty txt stx hx hlx hcx
      refine ⟨by rw [addToken_line, hlx]; exact hLine1,
        addToken_col_ge _ _ _ (by rw [hcx]; exact hCol1), ?_⟩
      rw [addToken_tokens, hx]
      apply htoks
      intro t ht
      rcases List.mem_singleton.mp ht with rfl
      constructor
      · dsimp only
        rw [hlx]
        exact hLine1
      · dsimp only
        rw [hcx]
        exact hCol1
    by_cases hc1 : str.get? st1.index = some '\n'
    · rw [if_pos hc1] at h
      cases h
      refine ⟨by dsimp only; omega, by dsimp only; omega, ?_⟩
      exact (haux "NEWLINE" none { st1 with tokens := st1.tokens ++ ws } rfl rfl rfl).2.2
    rw [if_neg hc1] at h
    by_cases hc2 : str.get? st1.index = some '#'
    · rw [if_pos hc2] at h
      cases h
      exact haux _ _ _ rfl rfl rfl
    rw [if_neg hc2] at h
    by_cases hc3 : str.get? st1.index = some '&'
    · rw [if_pos hc3] at h
      cases h
      dsimp only
      exact haux _ _ _ rfl rfl rfl
    rw [if_neg hc3] at h
    by_cases hc4 : str.get? st1.index = some '$'
    · rw [if_pos hc4] at h
      cases h
      dsimp only
      exact haux _ _ _ rfl rfl rfl
    rw [if_neg hc4] at h
    by_cases hc5 : str.get? st1.index = some '*'
    · rw [if_pos hc5] at h
      cases h
      dsimp only
      exact haux _ _ _ rfl rfl rfl
    rw [if_neg hc5] at h
    by_cases hc6 : str.get? st1.index = some ';'
    · rw [if_pos hc6] at h
      cases h
      exact haux _ _ _ rfl rfl rfl
    rw [if_neg hc6] at h
    by_cases hc7 : (match str.get? st1.index with
                    | some c => isIdentifierStart c
                    | none => true) = true
    · rw [if_pos hc7] at h
      cases h
      exact haux _ _ _ rfl rfl rfl
    rw [if_neg hc7] at h
    by_cases hc8 : (str.get? st1.index = some ' ' || str.get? st1.index = some '\t') = true
    · rw [if_pos hc8] at h
      rcases hws2 : whitespaceTokenizer str
          { st1 with tokens := st1.tokens ++ ws } with e | ⟨ws2, st3⟩
      · rw [hws2] at h; cases h
      · rw [hws2] at h
        dsimp only at h
        cases h
        obtain ⟨hT2, hL2, hC2, hCount2, hMem2, hNe2, hNil2⟩ :=
          whitespaceTokenizer_ok_spec str _ ws2 st3 hws2
        dsimp only at hT2 hL2 hC2 hMem2
        refine ⟨by dsimp only; rw [hL2]; exact hLine1, ?_, ?_⟩
        · dsimp only
          rcases hC2 with hC2 | hC2
          · rw [hC2]; exact hCol1
          · exact hC2
        · dsimp only
          rw [hT2]
          apply htoks
          intro t ht
          obtain ⟨_, hline, hcol⟩ := hMem2 t ht
          rw [hline, hcol]
          exact ⟨hLine1, le_refl 1⟩
    rw [if_neg hc8] at h
    by_cases hc9 : (str.get? st1.index = some '-'
        && str.get? (st1.index + 1) = some '>') = true
    · rw [if_pos hc9] at h
      cases h
      dsimp only
      exact haux _ _ _ rfl rfl rfl
    rw [if_neg hc9] at h
    rcases hchar : str.get? st1.index with _ | c
    · rw [hchar] at hc7
      exact absurd rfl hc7
    · rw [hchar] at h
      dsimp only at h
      cases h
      dsimp only
      exact haux _ _ _ rfl rfl rfl

theorem loopIter_head (str : List Char) (st st2 : TState)
    (h : loopIter str st = Except.ok st2)
    (hHead : ∀ t, st.tokens.head? = some t → t.type ≠ "INDENT") :
    ∀ t, st2.tokens.head? = some t → t.type ≠ "INDENT" := by
  unfold loopIter at h
  rcases hws : whitespaceTokenizer str st with e | ⟨ws, st1⟩
  · rw [hws] at h; cases h
  · rw [hws] at h
    dsimp only at h
    obtain ⟨hT, hL, hC, hCount, hMem, hNe, hNil⟩ :=
      whitespaceTokenizer_ok_spec str st ws st1 hws
    have haux : ∀ (ty : String) (txt : Option String) (stx : TState),
        ty ≠ "INDENT" → stx.tokens = st1.tokens ++ ws →
        ∀ t, (addToken stx ty txt).tokens.head? = some t → t.type ≠ "INDENT" := by
      intro ty txt stx hty hx t ht
      rw [addToken_tokens, hx, hT] at ht
      rcases hst : st.tokens with _ | ⟨a, as⟩
      · rw [hst, hNil hst] at ht
        simp only [List.nil_append, List.head?_cons, Option.some.injEq] at ht
        rw [← ht]
        exact hty
      · rw [hst] at ht
        simp only [List.cons_append, List.head?_cons, Option.some.injEq] at ht
        rw [← ht]
        exact hHead a (by rw [hst]; rfl)
    by_cases hc1 : str.get? st1.index = some '\n'
    · rw [if_pos hc1] at h
      cases h
      exact haux "NEWLINE" none _ (by decide) rfl
    rw [if_neg hc1] at h
    by_cases hc2 : str.get? st1.index = some '#'
    · rw [if_pos hc2] at h
      cases h
      exact haux _ _ _ (by decide) rfl
    rw [if_neg hc2] at h
    by_cases hc3 : str.get? st1.index = some '&'
    · rw [if_pos hc3] at h
      cases h
      exact haux "PARALLEL_STATE" none _ (by decide) rfl
    rw [if_neg hc3] at h
    by_cases hc4 : str.get? st1.index = some '$'
    · rw [if_pos hc4] at h
      cases h
      exact haux "FINAL_STATE" none _ (by decide) rfl
    rw [if_neg hc4] at h
    by_cases hc5 : str.get? st1.index = some '*'
    · rw [if_pos hc5] at h
      cases h
      exact haux "INITIAL_STATE" none _ (by decide) rfl
    rw [if_neg hc5] at h
    by_cases hc6 : str.get? st1.index = some ';'
    · rw [if_pos hc6] at h
      cases h
      exact haux _ _ _ (by decide) rfl
    rw [if_neg hc6] at h
    by_cases hc7 : (match str.get? st1.index with
                    | some c => isIdentifierStart c
                    | none => true) = true
    · rw [if_pos hc7] at h
      cases h
      exact haux _ _ _ (by decide) rfl
    rw [if_neg hc7] at h
    by_cases hc8 : (str.get? st1.index = some ' ' || str.get? st1.index = some '\t') = true
    · rw [if_pos hc8] at h
      rcases hws2 : whitespaceTokenizer str
          { st1 with tokens := st1.tokens ++ ws } with e | ⟨ws2, st3⟩
      · rw [hws2] at h; cases h
      · rw [hws2] at h
        dsimp only at h
        cases h
        obtain ⟨hT2, hL2, hC2, hCount2, hMem2, hNe2, hNil2⟩ :=
          whitespaceTokenizer_ok_spec str _ ws2 st3 hws2
        dsimp only at hT2 hNil2
        intro t ht
        dsimp only at ht
        rw [hT2, hT] at ht
        rcases hst : st.tokens with _ | ⟨a, as⟩
        · rw [hst, hNil hst] at ht
          rw [hNil2 (by rw [hT, hst, hNil hst]; rfl)] at ht
          cases ht
        · rw [hst] at ht
          simp only [List.cons_append, List.head?_cons, Option.some.injEq] at ht
          rw [← ht]
          exact hHead a (by rw [hst]; rfl)
    rw [if_neg hc8] at h
    by_cases hc9 : (str.get? st1.index = some '-'
        && str.get? (st1.index + 1) = some '>') = true
    · rw [if_pos hc9] at h
      cases h
      exact haux "TRANSITION_ARROW" none _ (by decide) rfl
    rw [if_neg hc9] at h
    rcases hchar : str.get? st1.index with _ | c
    · rw [hchar] at hc7
      exact absurd rfl hc7
    · rw [hchar] at h
      dsimp only at h
      cases h
      intro t ht
      dsimp only at ht
      exact haux "UNKNOWN" (some c.toString) _ (by decide) rfl t ht

/-!
## Combinator lemmas
-/

theorem parserBind {α β : Type} (p : ParserM α) (f : α → ParserM β) :
    p >>= f = pbind p f := rfl

theorem parserPure {α : Type} (a : α) : (pure a : ParserM α) = ppure a := rfl

theorem oneOrAnother_perr_next {α : Type} (ps : List (ParserM α)) (i : Nat)
    (m : String) (k : Nat) (h : oneOrAnother ps i = PRes.err (PErr.perr m) k) :
    k = i := by
  induction ps with
  | nil =>
    simp only [oneOrAnother] at h
    cases h
    rfl
  | cons p rest ih =>
    simp only [oneOrAnother] at h
    cases hp : p i with
    | ok a j => rw [hp] at h; cases h
    | err e j =>
      cases e with
      | perr mm => rw [hp] at h; exact ih h
      | fuel => rw [hp] at h; cases h

theorem oneOrAnother_cons_perr {α : Type} (p : ParserM α) (rest : List (ParserM α))
    (i : Nat) (m : String) (k : Nat) (h : p i = PRes.err (PErr.perr m) k) :
    oneOrAnother (p :: rest) i = oneOrAnother rest i := by
  simp only [oneOrAnother, h]

theorem zeroOrOne_not_perr {α : Type} (fn : ParserM α) (i : Nat) (m : String)
    (k : Nat) : zeroOrOne fn i ≠ PRes.err (PErr.perr m) k := by
  simp only [zeroOrOne]
  cases hp : fn i with
  | ok a j => simp
  | err e j => cases e <;> simp

theorem zeroOrOne_perr_restore {α : Type} (fn : ParserM α) (i : Nat) (m : String)
    (k : Nat) (h : fn i = PRes.err (PErr.perr m) k) : zeroOrOne fn i = PRes.ok [] i := by
  simp only [zeroOrOne, h]

theorem zeroOrMore_not_perr {α : Type} (fuel : Nat) (fn : ParserM α) :
    ∀ (i : Nat) (m : String) (k : Nat), zeroOrMore fuel fn i ≠ PRes.err (PErr.perr m) k := by
  induction fuel with
  | zero => intro i m k; simp [zeroOrMore]
  | succ fuel ih =>
    intro i m k
    simp only [zeroOrMore]
    cases hp : fn i with
    | ok a j =>
      cases hr : zeroOrMore fuel fn j with
      | ok as kk => simp [hr]
      | err e kk =>
        cases e with
        | perr mm => exact absurd hr (ih j mm kk)
        | fuel => simp [hr]
    | err e j => cases e <;> simp

theorem zeroOrMore_perr_restore {α : Type} (fuel : Nat) (fn : ParserM α) (i : Nat)
    (m : String) (k : Nat) (h : fn i = PRes.err (PErr.perr m) k) :
    zeroOrMore (fuel+1) fn i = PRes.ok [] i := by
  simp only [zeroOrMore, h]

theorem zeroOrMore_ok_stops {α : Type} (fuel : Nat) (fn : ParserM α) :
    ∀ (i : Nat) (as : List α) (k : Nat), zeroOrMore fuel fn i = PRes.ok as k →
      ∃ m j, fn k = PRes.err (PErr.perr m) j := by
  induction fuel with
  | zero => intro i as k h; simp [zeroOrMore] at h
  | succ fuel ih =>
    intro i as k h
    simp only [zeroOrMore] at h
    cases hp : fn i with
    | ok a j =>
      rw [hp] at h
      dsimp only at h
      cases hr : zeroOrMore fuel fn j with
      | ok bs kk =>
        rw [hr] at h
        cases h
        exact ih j bs k hr
      | err e kk => rw [hr] at h; cases h
    | err e j =>
      rw [hp] at h
      cases e with
      | perr mm =>
        dsimp only at h
        cases h
        exact ⟨mm, j, hp⟩
      | fuel => dsimp only at h; cases h

/-- C8. Backtracking discipline of the combinator core: a failing alternative
inside `oneOrAnother` hands the next alternative the entry position unchanged,
and when every alternative fails the combinator fails at its entry position;
`zeroOrOne` and `zeroOrMore` never fail, return the entry position when the
(first) attempt fails, and `zeroOrMore` always stops at the entry position of
its first failed attempt. (Fuel exhaustion, which models a diverging source
run that never returns at all, is not a failure result.) -/
theorem claim8_backtracking_discipline :
    (∀ (α : Type) (ps : List (ParserM α)) (i : Nat) (m : String) (k : Nat),
        oneOrAnother ps i = PRes.err (PErr.perr m) k → k = i)
  ∧ (∀ (α : Type) (p : ParserM α) (rest : List (ParserM α)) (i : Nat) (m : String) (k : Nat),
        p i = PRes.err (PErr.perr m) k → oneOrAnother (p :: rest) i = oneOrAnother rest i)
  ∧ (∀ (α : Type) (fn : ParserM α) (i : Nat) (m : String) (k : Nat),
        zeroOrOne fn i ≠ PRes.err (PErr.perr m) k)
  ∧ (∀ (α : Type) (fn : ParserM α) (i : Nat) (m : String) (k : Nat),
        fn i = PRes.err (PErr.perr m) k → zeroOrOne fn i = PRes.ok [] i)
  ∧ (∀ (α : Type) (fuel : Nat) (fn : ParserM α) (i : Nat) (m : String) (k : Nat),
        zeroOrMore fuel fn i ≠ PRes.err (PErr.perr m) k)
  ∧ (∀ (α : Type) (fuel : Nat) (fn : ParserM α) (i : Nat) (m : String) (k : Nat),
        fn i = PRes.err (PErr.perr m) k → zeroOrMore (fuel+1) fn i = PRes.ok [] i)
  ∧ (∀ (α : Type) (fuel : Nat) (fn : ParserM α) (i : Nat) (as : List α) (k : Nat),
        zeroOrMore fuel fn i = PRes.ok as k →
          ∃ m j, fn k = PRes.err (PErr.perr m) j) :=
  ⟨fun _ => oneOrAnother_perr_next,
   fun _ => oneOrAnother_cons_perr,
   fun _ => zeroOrOne_not_perr,
   fun _ => zeroOrOne_perr_restore,
   fun _ fuel => zeroOrMore_not_perr fuel,
   fun _ fuel => zeroOrMore_perr_restore fuel,
   fun _ fuel => zeroOrMore_ok_stops fuel⟩

/-- Witness for C8: the combinators applied to concrete failing/succeeding
rules on concrete cursors — `condition []` fails (with the cursor untouched)
on every position of an empty token stream. -/
theorem claim8_backtracking_discipline_witness :
    ((0 : Nat) = 0)
  ∧ (oneOrAnother [condition [], identifier []] 0 = oneOrAnother [identifier []] 0)
  ∧ (zeroOrOne (condition ([] : List Token)) 5 = PRes.ok [] 5)
  ∧ (zeroOrMore 3 (condition ([] : List Token)) 7 = PRes.ok [] 7)
  ∧ (∃ m j, condition ([] : List Token) 7 = PRes.err (PErr.perr m) j) := by
  refine ⟨?_, ?_, ?_, ?_, ?_⟩
  · exact claim8_backtracking_discipline.1 String [condition [], identifier []] 0
      "oneOrAnother parser: matched none of the rules" 0 (by rfl)
  · exact claim8_backtracking_discipline.2.1 String (condition []) [identifier []] 0
      "TypeError: tokens index out of range" 0 (by rfl)
  · exact claim8_backtracking_discipline.2.2.2.1 String (condition []) 5
      "TypeError: tokens index out of range" 5 (by rfl)
  · exact claim8_backtracking_discipline.2.2.2.2.2.1 String 2 (condition []) 7
      "TypeError: tokens index out of range" 7 (by rfl)
  · exact claim8_backtracking_discipline.2.2.2.2.2.2 String 3 (condition []) 7 [] 7 (by rfl)

theorem mainLoop_done_preserve (str : List Char) (P : TState → Prop)
    (hstep : ∀ st st2, loopIter str st = Except.ok st2 → P st → P st2) :
    ∀ (fuel : Nat) (st st' : TState),
      mainLoop str fuel st = TLoopResult.done st' → P st → P st' := by
  intro fuel
  induction fuel with
  | zero =>
    intro st st' h
    simp [mainLoop] at h
  | succ fuel ih =>
    intro st st' h hp
    rw [mainLoop] at h
    split at h
    · rcases hit : loopIter str st with e | st2
      · rw [hit] at h; cases h
      · rw [hit] at h
        exact ih st2 st' h (hstep st st2 hit hp)
    · cases h
      exact hp

/-- C2: whenever the tokenizer measures, at a line start (previous token
NEWLINE), an indentation width smaller than the indent-stack top that matches
no width on the stack, the main loop aborts at once with the error message
`Invalid indentation` and yields no token list (first conjunct, over arbitrary
reachable loop states); in particular `tokenize` fails that way on the spec's
example of widths 0, 2, 6, 4 (second conjunct). -/
theorem claim2_invalid_indentation_error :
    (∀ (str : List Char) (fuel : Nat) (st : TState) (prev : Nat),
        st.index < str.length →
        prevTokenTypeCheck st.tokens "NEWLINE" = true →
        st.indentStack.getLast? = some prev →
        countLeadingSpaces str st.index < prev →
        st.indentStack.contains (countLeadingSpaces str st.index) = false →
        mainLoop str (fuel+1) st = TLoopResult.failed "Invalid indentation")
  ∧ tokenize "a\n  b\n      c\n    d" = TokResult.error "Invalid indentation" := by
  constructor
  · intro str fuel st prev hidx hprev hlast hlt hnc
    have hli : loopIter str st = Except.error "Invalid indentation" := by
      unfold loopIter
      rw [whitespaceTokenizer_invalid str st hprev prev hlast hlt hnc]
    rw [mainLoop, if_pos hidx, hli]
  · decide

/-- Witness for C2: a concrete loop state (previous token NEWLINE, indent stack
`[0, 4]`) reading a line of measured width 1, which is below the top 4 and on
no stack entry. -/
theorem claim2_invalid_indentation_error_witness :
    mainLoop " x".toList 3 ⟨0, [⟨"NEWLINE", 1, 1, none⟩], [0, 4], 2, 1⟩
      = TLoopResult.failed "Invalid indentation" :=
  claim2_invalid_indentation_error.1 " x".toList 2
    ⟨0, [⟨"NEWLINE", 1, 1, none⟩], [0, 4], 2, 1⟩ 4
    (by decide) (by decide) (by decide) (by decide) (by decide)

/-- C3: on every input on which `tokenize` returns a token list, the number of
INDENT tokens equals the number of DEDENT tokens (first conjunct), and the
dedent-emitting loop, on a strictly increasing stack containing the target
width, emits exactly one DEDENT per stack entry above that width — the depth
difference — never more, never fewer (second conjunct). -/
theorem claim3_indent_dedent_balance :
    (∀ (s : String) (ts : List Token), tokenize s = TokResult.ok ts →
        countTokens ts "INDENT" = countTokens ts "DEDENT")
  ∧ (∀ (tok : Token) (fuel : Nat) (stack : List Nat) (cur : Nat),
        stack.length ≤ fuel → List.Sorted (· < ·) stack → cur ∈ stack →
        (dedentLoop tok fuel stack cur).2.length
          = stack.countP (fun n => decide (cur < n))) := by
  constructor
  · intro s ts h
    unfold tokenize at h
    dsimp only at h
    rcases hml : mainLoop s.toList (s.toList.length + 2) ⟨0, [], [0], 1, 1⟩
      with st' | e | _
    · rw [hml] at h
      dsimp only at h
      rw [TokResult.ok.injEq] at h
      obtain ⟨hphi1, hphi2⟩ := mainLoop_done_preserve s.toList
        (fun st => countTokens st.tokens "INDENT" + 1
            = countTokens st.tokens "DEDENT" + st.indentStack.length
          ∧ st.indentStack ≠ [])
        (fun st st2 hit hp => loopIter_balance s.toList st st2 hit hp.1 hp.2)
        (s.toList.length + 2) ⟨0, [], [0], 1, 1⟩ st' hml
        ⟨by simp [countTokens], by simp⟩
      subst h
      have hTmem := trailingDedents_mem
        ⟨"DEDENT", st'.currentLine, st'.currentCol, none⟩
        st'.indentStack.length st'.indentStack
      have hTlen := trailingDedents_length
        ⟨"DEDENT", st'.currentLine, st'.currentCol, none⟩
        st'.indentStack.length st'.indentStack (by omega)
      have hTD := countTokens_all
        (trailingDedents ⟨"DEDENT", st'.currentLine, st'.currentCol, none⟩
          st'.indentStack.length st'.indentStack) "DEDENT"
        (fun x hx => by rw [hTmem x hx])
      have hTI := countTokens_none
        (trailingDedents ⟨"DEDENT", st'.currentLine, st'.currentCol, none⟩
          st'.indentStack.length st'.indentStack) "INDENT"
        (fun x hx => by rw [hTmem x hx]; simp)
      have hpos : 1 ≤ st'.indentStack.length := List.length_pos.mpr hphi2
      rw [countTokens_append, countTokens_append, hTD, hTI, hTlen]
      omega
    · rw [hml] at h; cases h
    · rw [hml] at h; cases h
  · intro tok fuel stack cur hle hsorted hmem
    exact dedentLoop_count_sorted tok fuel stack cur hle hsorted hmem

/-- Witness for C3: the input `"a\n  b"` tokenizes with one INDENT and one
DEDENT, and the dedent loop on the stack `[0, 2, 6]` dedenting to width 2 emits
exactly one DEDENT (the depth difference between levels 6 and 2). -/
theorem claim3_indent_dedent_balance_witness :
    countTokens [⟨"IDENTIFIER", 1, 1, some "a"⟩, ⟨"NEWLINE", 1, 2, none⟩,
        ⟨"INDENT", 2, 1, some "  "⟩, ⟨"IDENTIFIER", 2, 3, some "b"⟩,
        ⟨"DEDENT", 2, 4, none⟩] "INDENT"
      = countTokens [⟨"IDENTIFIER", 1, 1, some "a"⟩, ⟨"NEWLINE", 1, 2, none⟩,
        ⟨"INDENT", 2, 1, some "  "⟩, ⟨"IDENTIFIER", 2, 3, some "b"⟩,
        ⟨"DEDENT", 2, 4, none⟩] "DEDENT"
  ∧ (dedentLoop ⟨"DEDENT", 1, 1, none⟩ 3 [0, 2, 6] 2).2.length
      = [0, 2, 6].countP (fun n => decide (2 < n)) :=
  ⟨claim3_indent_dedent_balance.1 "a\n  b" _ (by decide),
   claim3_indent_dedent_balance.2 ⟨"DEDENT", 1, 1, none⟩ 3 [0, 2, 6] 2
     (by decide) (by decide) (by decide)⟩

/-- C6 (counterexample): the claim says that an input whose very first line
begins with spaces gets its width pushed and an INDENT token emitted before the
first line's other tokens. The code only measures indentation after a NEWLINE
token: on `"  a"` the leading spaces are skipped silently and the output is
just the identifier (even recorded at column 1), with no INDENT anywhere. -/
theorem claim6_first_line_indent_counterexample :
    tokenize "  a" = TokResult.ok [⟨"IDENTIFIER", 1, 1, some "a"⟩] := by decide

/-- C6 (amended): indent measurement is triggered only immediately after a
NEWLINE token, not before the first token: leading whitespace on the first
line is skipped without pushing the stack or emitting INDENT, so the first
token of any successful tokenization is never an INDENT (first conjunct);
after a NEWLINE, the width is measured and a deeper line gets its INDENT as
usual (second conjunct, concrete). -/
theorem claim6_first_line_indent_amended :
    (∀ (s : String) (ts : List Token) (t : Token),
        tokenize s = TokResult.ok ts → ts.head? = some t → t.type ≠ "INDENT")
  ∧ tokenize "a\n  b" = TokResult.ok [⟨"IDENTIFIER", 1, 1, some "a"⟩,
      ⟨"NEWLINE", 1, 2, none⟩, ⟨"INDENT", 2, 1, some "  "⟩,
      ⟨"IDENTIFIER", 2, 3, some "b"⟩, ⟨"DEDENT", 2, 4, none⟩] := by
  constructor
  · intro s ts t h hhead
    unfold tokenize at h
    dsimp only at h
    rcases hml : mainLoop s.toList (s.toList.length + 2) ⟨0, [], [0], 1, 1⟩
      with st' | e | _
    · rw [hml] at h
      dsimp only at h
      rw [TokResult.ok.injEq] at h
      have hP := mainLoop_done_preserve s.toList
        (fun st => ∀ t, st.tokens.head? = some t → t.type ≠ "INDENT")
        (fun st st2 hit hp => loopIter_head s.toList st st2 hit hp)
        (s.toList.length + 2) ⟨0, [], [0], 1, 1⟩ st' hml
        (fun t ht => by cases ht)
      subst h
      rcases hst : st'.tokens with _ | ⟨a, as⟩
      · rw [hst] at hhead
        rcases htr : trailingDedents ⟨"DEDENT", st'.currentLine, st'.currentCol, none⟩
            st'.indentStack.length st'.indentStack with _ | ⟨b, bs⟩
        · rw [htr] at hhead; cases hhead
        · rw [htr] at hhead
          simp only [List.nil_append, List.head?_cons, Option.some.injEq] at hhead
          have := trailingDedents_mem
            ⟨"DEDENT", st'.currentLine, st'.currentCol, none⟩
            st'.indentStack.length st'.indentStack b (by rw [htr]; simp)
          rw [← hhead, this]
          simp
      · rw [hst] at hhead
        simp only [List.cons_append, List.head?_cons, Option.some.injEq] at hhead
        rw [← hhead]
        exact hP a (by rw [hst]; rfl)
    · rw [hml] at h; cases h
    · rw [hml] at h; cases h
  · decide

/-- Witness for C6 (amended): the first token of tokenizing `"a\n  b"` is the
identifier `a`, not an INDENT. -/
theorem claim6_first_line_indent_amended_witness :
    (⟨"IDENTIFIER", 1, 1, some "a"⟩ : Token).type ≠ "INDENT" :=
  claim6_first_line_indent_amended.1 "a\n  b"
    [⟨"IDENTIFIER", 1, 1, some "a"⟩, ⟨"NEWLINE", 1, 2, none⟩,
     ⟨"INDENT", 2, 1, some "  "⟩, ⟨"IDENTIFIER", 2, 3, some "b"⟩,
     ⟨"DEDENT", 2, 4, none⟩] _ (by decide) (by decide)

/-- C9 (counterexample): the claim says every token records the 1-based source
column of its first character, the two-character arrow advances the running
column by 2, and skipped inter-token whitespace advances it past the blanks.
In `"a -> b"` the arrow's first character is at source column 3 and `b` at
source column 6, but the code records columns 2 and 3: the whitespace skipper
leaves the column untouched and the textless arrow token advances it by 1. -/
theorem claim9_column_bookkeeping_counterexample :
    tokenize "a -> b" = TokResult.ok [⟨"IDENTIFIER", 1, 1, some "a"⟩,
      ⟨"TRANSITION_ARROW", 1, 2, none⟩, ⟨"IDENTIFIER", 1, 3, some "b"⟩] := by
  decide

/-- C9 (amended): every emitted token records the running 1-based line and
column counters, which are always at least 1 (first conjunct); the counters
advance by the token's text length for text-bearing tokens and by exactly 1
for textless tokens — including the two-character TRANSITION_ARROW — and do
not advance over skipped inter-token whitespace, as the recorded columns
1, 3, 4 of `"ab -> cd"` show (second conjunct). -/
theorem claim9_column_bookkeeping_amended :
    (∀ (s : String) (ts : List Token) (t : Token),
        tokenize s = TokResult.ok ts → t ∈ ts → 1 ≤ t.line ∧ 1 ≤ t.col)
  ∧ tokenize "ab -> cd" = TokResult.ok [⟨"IDENTIFIER", 1, 1, some "ab"⟩,
      ⟨"TRANSITION_ARROW", 1, 3, none⟩, ⟨"IDENTIFIER", 1, 4, some "cd"⟩] := by
  constructor
  · intro s ts t h hmem
    unfold tokenize at h
    dsimp only at h
    rcases hml : mainLoop s.toList (s.toList.length + 2) ⟨0, [], [0], 1, 1⟩
      with st' | e | _
    · rw [hml] at h
      dsimp only at h
      rw [TokResult.ok.injEq] at h
      obtain ⟨hl1, hc1, htoks⟩ := mainLoop_done_preserve s.toList
        (fun st => 1 ≤ st.currentLine ∧ 1 ≤ st.currentCol
          ∧ ∀ t ∈ st.tokens, 1 ≤ t.line ∧ 1 ≤ t.col)
        (fun st st2 hit hp => loopIter_linecol s.toList st st2 hit hp.1 hp.2.1 hp.2.2)
        (s.toList.length + 2) ⟨0, [], [0], 1, 1⟩ st' hml
        ⟨by simp, by simp, fun t ht => by cases ht⟩
      subst h
      rcases List.mem_append.mp hmem with hm | hm
      · exact htoks t hm
      · have := trailingDedents_mem
          ⟨"DEDENT", st'.currentLine, st'.currentCol, none⟩
          st'.indentStack.length st'.indentStack t hm
        rw [this]
        exact ⟨hl1, hc1⟩
    · rw [hml] at h; cases h
    · rw [hml] at h; cases h
  · decide

/-- Witness for C9 (amended): the arrow token recorded for `"ab -> cd"` has
1-based line and column. -/
theorem claim9_column_bookkeeping_amended_witness :
    1 ≤ (⟨"TRANSITION_ARROW", 1, 3, none⟩ : Token).line
  ∧ 1 ≤ (⟨"TRANSITION_ARROW", 1, 3, none⟩ : Token).col :=
  claim9_column_bookkeeping_amended.1 "ab -> cd"
    [⟨"IDENTIFIER", 1, 1, some "ab"⟩, ⟨"TRANSITION_ARROW", 1, 3, none⟩,
     ⟨"IDENTIFIER", 1, 4, some "cd"⟩] _ (by decide) (by decide)

/-!
## Grammar-rule decomposition lemmas
-/

theorem pbind_ok {α β : Type} {p : ParserM α} {f : α → ParserM β} {i : Nat}
    {b : β} {k : Nat} (h : pbind p f i = PRes.ok b k) :
    ∃ a j, p i = PRes.ok a j ∧ f a j = PRes.ok b k := by
  unfold pbind at h
  cases hp : p i with
  | ok a j =>
    rw [hp] at h
    dsimp only at h
    exact ⟨a, j, rfl, h⟩
  | err e j =>
    rw [hp] at h
    dsimp only at h
    cases h

theorem ppure_ok {α : Type} {a b : α} {i j : Nat}
    (h : ppure a i = PRes.ok b j) : b = a ∧ j = i := by
  unfold ppure at h
  cases h
  exact ⟨rfl, rfl⟩

theorem identifier_ok_next {ts : List Token} {i : Nat} {a : String} {j : Nat}
    (h : identifier ts i = PRes.ok a j) : j = i + 1 := by
  unfold identifier at h
  cases hg : ts.get? i with
  | some t =>
    rw [hg] at h
    dsimp only at h
    split at h
    · cases h; rfl
    · cases h
  | none =>
    rw [hg] at h
    dsimp only at h
    cases h

theorem zeroOrOne_parallelState (ts : List Token) (i : Nat) :
    zeroOrOne (parallelState ts) i
      = if tokHasType ts i "PARALLEL_STATE" then PRes.ok [true] (i+1)
        else PRes.ok [] i := by
  unfold zeroOrOne parallelState tokHasType
  cases hg : ts.get? i with
  | some t =>
    by_cases ht : t.type = "PARALLEL_STATE"
    · simp [ht]
    · simp [ht]
  | none => simp

theorem zeroOrOne_finalState (ts : List Token) (i : Nat) :
    zeroOrOne (finalState ts) i
      = if tokHasType ts i "FINAL_STATE" then PRes.ok [true] (i+1)
        else PRes.ok [] i := by
  unfold zeroOrOne finalState tokHasType
  cases hg : ts.get? i with
  | some t =>
    by_cases ht : t.type = "FINAL_STATE"
    · simp [ht]
    · simp [ht]
  | none => simp

theorem zeroOrOne_initialState (ts : List Token) (i : Nat) :
    zeroOrOne (initialState ts) i
      = if tokHasType ts i "INITIAL_STATE" then PRes.ok [true] (i+1)
        else PRes.ok [] i := by
  unfold zeroOrOne initialState tokHasType
  cases hg : ts.get? i with
  | some t =>
    by_cases ht : t.type = "INITIAL_STATE"
    · simp [ht]
    · simp [ht]
  | none => simp

theorem zeroOrOne_indent (ts : List Token) (i : Nat) :
    zeroOrOne (indent ts) i
      = if tokHasType ts i "INDENT" then PRes.ok [true] (i+1)
        else PRes.ok [] i := by
  unfold zeroOrOne indent tokHasType
  cases hg : ts.get? i with
  | some t =>
    by_cases ht : t.type = "INDENT"
    · simp [ht]
    · simp [ht]
  | none => simp

theorem zeroOrMore_ok_elements {α : Type} (fuel : Nat) (f : ParserM α) :
    ∀ (i : Nat) (as : List α) (k : Nat), zeroOrMore fuel f i = PRes.ok as k →
      ∀ a ∈ as, ∃ iq jq, f iq = PRes.ok a jq := by
  induction fuel with
  | zero => intro i as k h; simp [zeroOrMore] at h
  | succ fuel ih =>
    intro i as k h
    simp only [zeroOrMore] at h
    cases hp : f i with
    | ok a j =>
      rw [hp] at h
      dsimp only at h
      cases hr : zeroOrMore fuel f j with
      | ok bs kk =>
        rw [hr] at h
        cases h
        intro x hx
        rcases List.mem_cons.mp hx with rfl | hx
        · exact ⟨i, j, hp⟩
        · exact ih j bs k hr x hx
      | err e kk => rw [hr] at h; cases h
    | err e j =>
      rw [hp] at h
      cases e with
      | perr mm =>
        dsimp only at h
        cases h
        intro x hx
        cases hx
      | fuel => dsimp only at h; cases h

theorem oneOrAnother_ok_mem {α : Type} (ps : List (ParserM α)) (i : Nat)
    (a : α) (j : Nat) (h : oneOrAnother ps i = PRes.ok a j) :
    ∃ p ∈ ps, p i = PRes.ok a j := by
  induction ps with
  | nil => simp only [oneOrAnother] at h; cases h
  | cons p rest ih =>
    simp only [oneOrAnother] at h
    cases hp : p i with
    | ok b k =>
      rw [hp] at h
      cases h
      exact ⟨p, by simp, hp⟩
    | err e k =>
      cases e with
      | perr mm =>
        rw [hp] at h
        obtain ⟨q, hq1, hq2⟩ := ih h
        exact ⟨q, by simp [hq1], hq2⟩
      | fuel => rw [hp] at h; cases h

theorem withInitialState_states (n : StateNode) :
    (withInitialState n).states = n.states := by
  unfold withInitialState
  rcases hs : n.states with _ | l
  · simp [hs]
  · cases l with
    | nil => simp [hs]
    | cons kv rest => cases kv; simp [hs, StateNode.states]

theorem withInitialState_onMap (n : StateNode) :
    (withInitialState n).onMap = n.onMap := by
  unfold withInitialState
  rcases hs : n.states with _ | l
  · simp [hs]
  · cases l with
    | nil => simp [hs]
    | cons kv rest => cases kv; simp [hs, StateNode.onMap]

theorem withInitialState_type (n : StateNode) :
    (withInitialState n).type = n.type := by
  unfold withInitialState
  rcases hs : n.states with _ | l
  · simp [hs]
  · cases l with
    | nil => simp [hs]
    | cons kv rest => cases kv; simp [hs, StateNode.type]

theorem withInitialState_initial_cons (n : StateNode) (k0 : String) (v0 : SVal)
    (rest : List (String × SVal)) (h : n.states = some ((k0, v0) :: rest)) :
    (withInitialState n).initial
      = some (((k0, v0) :: rest).foldl
          (fun acc kv => if svalIsInitial kv.2 then kv.1 else acc) k0) := by
  unfold withInitialState
  rw [h]
  simp [StateNode.initial]

theorem stateParser_ok {ts : List Token} {fuel i : Nat} {node : StateNode} {j : Nat}
    (h : stateParser ts (fuel+1) i = PRes.ok node j) :
    ∃ si, oneOrAnother [stateWithMoreDetails ts fuel, stateWithNameOnly ts] i
        = PRes.ok si j
      ∧ node = withInitialState si := by
  unfold stateParser at h
  cases ho : oneOrAnother [stateWithMoreDetails ts fuel, stateWithNameOnly ts] i with
  | ok si jj =>
    rw [ho] at h
    dsimp only at h
    cases h
    exact ⟨si, rfl, rfl⟩
  | err e jj =>
    rw [ho] at h
    dsimp only at h
    cases h

theorem stateWithNameOnly_ok_fields {ts : List Token} {i : Nat} {node : StateNode}
    {j : Nat} (h : stateWithNameOnly ts i = PRes.ok node j) :
    node.states = none ∧ node.onMap = none ∧ node.initial = none
  ∧ node.type = (if tokHasType ts (i+1) "PARALLEL_STATE" then "parallel"
      else if tokHasType ts (i+1) "FINAL_STATE" then "final"
      else "atomic") := by
  unfold stateWithNameOnly at h
  simp only [parserBind] at h
  obtain ⟨stateName, j1, hid, h⟩ := pbind_ok h
  have hj1 := identifier_ok_next hid
  subst hj1
  try dsimp only at h
  obtain ⟨parallel, j2, hpar, h⟩ := pbind_ok h
  try dsimp only at h
  obtain ⟨isFinal, j3, hfin, h⟩ := pbind_ok h
  try dsimp only at h
  obtain ⟨isInitial, j4, hini, h⟩ := pbind_ok h
  try dsimp only at h
  obtain ⟨hnode, hj⟩ := ppure_ok h
  subst hnode
  rw [zeroOrOne_parallelState] at hpar
  by_cases hP : tokHasType ts (i+1) "PARALLEL_STATE"
  · rw [if_pos hP] at hpar
    cases hpar
    refine ⟨rfl, rfl, rfl, ?_⟩
    rw [if_pos hP]
    simp [StateNode.type]
  · rw [if_neg hP] at hpar
    cases hpar
    rw [zeroOrOne_finalState] at hfin
    by_cases hF : tokHasType ts (i+1) "FINAL_STATE"
    · rw [if_pos hF] at hfin
      cases hfin
      refine ⟨rfl, rfl, rfl, ?_⟩
      rw [if_neg hP, if_pos hF]
      simp [StateNode.type]
    · rw [if_neg hF] at hfin
      cases hfin
      refine ⟨rfl, rfl, rfl, ?_⟩
      rw [if_neg hP, if_neg hF]
      simp [StateNode.type]

theorem stateWithMoreDetails_ok_shape {ts : List Token} {fuel i : Nat}
    {node : StateNode} {j : Nat}
    (h : stateWithMoreDetails ts (fuel+1) i = PRes.ok node j) :
    ∃ (tas : List TS),
      node.type = (if tokHasType ts (i+1) "PARALLEL_STATE" then "parallel"
        else if tokHasType ts (i+1) "FINAL_STATE" then "final"
        else if (tas.filter (fun x => !(tsTypeIsTransition x))).length > 0 then "compound"
        else "atomic")
    ∧ node.initial = none
    ∧ node.onMap = (if (tas.filter tsTypeIsTransition).length > 0 then
          some (omitKeys ["type"] (arrayOfObjToObj
            ((tas.filter tsTypeIsTransition).map tsItemObj)))
        else none)
    ∧ node.states = (if (tas.filter (fun x => !(tsTypeIsTransition x))).length > 0 then
          some ((tas.filter (fun x => !(tsTypeIsTransition x))).foldl
            (fun acc ns => insertKV acc (tsId ns) (tsSVal ns)) [])
        else none)
    ∧ (∀ x ∈ tas,
        (∃ e t iq jq, x = TS.ttrans e t ∧ transition ts (fuel+1) iq = PRes.ok (e, t) jq)
      ∨ (∃ n iq jq, x = TS.tstate n ∧ stateParser ts fuel iq = PRes.ok n jq)) := by
  unfold stateWithMoreDetails at h
  simp only [parserBind] at h
  obtain ⟨stateName, j1, hid, h⟩ := pbind_ok h
  have hj1 := identifier_ok_next hid
  subst hj1
  try dsimp only at h
  obtain ⟨parallel, j2, hpar, h⟩ := pbind_ok h
  try dsimp only at h
  obtain ⟨isFinal, j3, hfin, h⟩ := pbind_ok h
  try dsimp only at h
  obtain ⟨isInitial, j4, hini, h⟩ := pbind_ok h
  try dsimp only at h
  obtain ⟨isIndentThere, j5, hind, h⟩ := pbind_ok h
  try dsimp only at h
  have hmarkers : (parallel.length > 0 ↔ tokHasType ts (i+1) "PARALLEL_STATE" = true)
      ∧ (tokHasType ts (i+1) "PARALLEL_STATE" = false →
          (isFinal.length > 0 ↔ tokHasType ts (i+1) "FINAL_STATE" = true)) := by
    rw [zeroOrOne_parallelState] at hpar
    by_cases hP : tokHasType ts (i+1) "PARALLEL_STATE" = true
    · rw [if_pos hP] at hpar
      cases hpar
      exact ⟨by simp [hP], fun hc => by rw [hP] at hc; cases hc⟩
    · rw [if_neg hP] at hpar
      cases hpar
      have hP2 : tokHasType ts (i+1) "PARALLEL_STATE" = false := by
        cases hx : tokHasType ts (i+1) "PARALLEL_STATE"
        · rfl
        · exact absurd hx hP
      rw [zeroOrOne_finalState] at hfin
      by_cases hF : tokHasType ts (i+1+0) "FINAL_STATE" = true
      · rw [if_pos hF] at hfin
        cases hfin
        refine ⟨by simp [hP2], fun _ => ?_⟩
        simp only [Nat.add_zero] at hF
        simp [hF]
      · rw [if_neg hF] at hfin
        cases hfin
        refine ⟨by simp [hP2], fun _ => ?_⟩
        simp only [Nat.add_zero] at hF
        constructor
        · intro hx
          simp at hx
        · intro hx
          rw [hx] at hF
          exact absurd rfl hF
  have htype : ∀ (cc : Prop) (inst : Decidable cc),
      (if parallel.length > 0 then "parallel"
       else if isFinal.length > 0 then "final"
       else if cc then "compound" else "atomic")
    = (if tokHasType ts (i+1) "PARALLEL_STATE" then "parallel"
       else if tokHasType ts (i+1) "FINAL_STATE" then "final"
       else if cc then "compound" else "atomic") := by
    intro cc inst
    by_cases hP : tokHasType ts (i+1) "PARALLEL_STATE" = true
    · rw [if_pos (hmarkers.1.mpr hP), if_pos hP]
    · have hP' : tokHasType ts (i+1) "PARALLEL_STATE" = false :=
        Bool.not_eq_true _ ▸ eq_false_of_ne_true hP
      have hpar0 : ¬ parallel.length > 0 := fun hx => hP (hmarkers.1.mp hx)
      rw [if_neg hP, if_neg hpar0]
      by_cases hF : tokHasType ts (i+1) "FINAL_STATE" = true
      · rw [if_pos ((hmarkers.2 hP').mpr hF), if_pos hF]
      · rw [if_neg (fun hx => hF ((hmarkers.2 hP').mp hx)), if_neg hF]
  by_cases hcond : isIndentThere.length > 0
  · rw [if_pos hcond] at h
    obtain ⟨tas, ja, hzm, h⟩ := pbind_ok h
    try dsimp only at h
    obtain ⟨dd, jb, hded, h⟩ := pbind_ok h
    try dsimp only at h
    obtain ⟨y, jc, hpy, h⟩ := pbind_ok h
    obtain ⟨hy, hjc⟩ := ppure_ok hpy
    rw [hy] at h
    try dsimp only at h
    obtain ⟨hnode, hj6⟩ := ppure_ok h
    subst hnode
    refine ⟨tas, ?_, rfl, rfl, rfl, ?_⟩
    · simp only [StateNode.type]
      exact htype _ _
    · intro x hx
      obtain ⟨iq, jq, hone⟩ := zeroOrMore_ok_elements _ _ _ _ _ hzm x hx
      obtain ⟨p, hpmem, hp⟩ := oneOrAnother_ok_mem _ _ _ _ hone
      rcases List.mem_cons.mp hpmem with rfl | hpmem
      · obtain ⟨pr, jr, htr, hpp⟩ := pbind_ok hp
        try dsimp only at hpp
        obtain ⟨hx2, _⟩ := ppure_ok hpp
        subst hx2
        exact Or.inl ⟨pr.1, pr.2, iq, jr, rfl, htr⟩
      · rcases List.mem_cons.mp hpmem with rfl | hpmem
        · obtain ⟨n, jr, hsp, hpp⟩ := pbind_ok hp
          try dsimp only at hpp
          obtain ⟨hx2, _⟩ := ppure_ok hpp
          subst hx2
          exact Or.inr ⟨n, iq, jr, rfl, hsp⟩
        · cases hpmem
  · rw [if_neg hcond] at h
    obtain ⟨y, jc, hpy, h⟩ := pbind_ok h
    obtain ⟨hy, hjc⟩ := ppure_ok hpy
    rw [hy] at h
    try dsimp only at h
    obtain ⟨hnode, hj6⟩ := ppure_ok h
    subst hnode
    refine ⟨[], ?_, rfl, rfl, rfl, fun x hx => absurd hx (List.not_mem_nil x)⟩
    simp only [StateNode.type]
    exact htype _ _

/-- C4 (counterexample): the claim classifies a state carrying both the
parallel marker and the final marker as `final`; the code checks the parallel
marker first, and `a&$` parses to a `parallel` state. -/
theorem claim4_marker_priority_counterexample :
    parse "a&$" = ParseResult.success
        (StateNode.mk "a" "parallel" false none none none)
  ∧ (StateNode.mk "a" "parallel" false none none none).type ≠ "final" := by
  refine ⟨?_, by decide⟩
  have htok : tokenize "a&$" = TokResult.ok
      [⟨"IDENTIFIER",1,1,some "a"⟩, ⟨"PARALLEL_STATE",1,2,none⟩,
       ⟨"FINAL_STATE",1,3,none⟩] := by rfl
  unfold parse
  rw [htok]
  rfl

/-- C4 (amended): for every successful `stateParser` run, the node's `type` is
`parallel` when the parallel marker follows the state name, else `final` when
the final marker does, else `compound` when child states were collected and
`atomic` otherwise: the parallel marker takes priority over the final marker,
not the other way round. -/
theorem claim4_state_type_classification_amended {ts : List Token} {fuel i : Nat}
    {node : StateNode} {j : Nat}
    (h : stateParser ts (fuel+1) i = PRes.ok node j) :
    node.type = (if tokHasType ts (i+1) "PARALLEL_STATE" then "parallel"
      else if tokHasType ts (i+1) "FINAL_STATE" then "final"
      else if node.states.isNone then "atomic" else "compound") := by
  obtain ⟨si, ho, hnode⟩ := stateParser_ok h
  obtain ⟨p, hpmem, hp⟩ := oneOrAnother_ok_mem _ _ _ _ ho
  subst hnode
  rw [withInitialState_type, withInitialState_states]
  rcases List.mem_cons.mp hpmem with rfl | hpmem
  · cases fuel with
    | zero => cases hp
    | succ fuel2 =>
      obtain ⟨tas, hty, hini, hon, hst, _⟩ := stateWithMoreDetails_ok_shape hp
      rw [hty, hst]
      by_cases hP : tokHasType ts (i+1) "PARALLEL_STATE" = true
      · simp [hP]
      · have hP2 : tokHasType ts (i+1) "PARALLEL_STATE" = false := by
          cases hxx : tokHasType ts (i+1) "PARALLEL_STATE"
          · rfl
          · exact absurd hxx hP
        by_cases hF : tokHasType ts (i+1) "FINAL_STATE" = true
        · simp [hP2, hF]
        · have hF2 : tokHasType ts (i+1) "FINAL_STATE" = false := by
            cases hxx : tokHasType ts (i+1) "FINAL_STATE"
            · rfl
            · exact absurd hxx hF
          by_cases hN : (tas.filter (fun x => !(tsTypeIsTransition x))).length > 0
          · simp [hP2, hF2, hN]
          · simp [hP2, hF2, hN]
  · rcases List.mem_cons.mp hpmem with rfl | hpmem
    · obtain ⟨hst, hon, hini, hty⟩ := stateWithNameOnly_ok_fields hp
      rw [hty, hst]
      simp
    · cases hpmem

/-- Witness for C4 (amended): applied to the token list of `a&$`, where both
markers are present and the node parses as `parallel`. -/
theorem claim4_state_type_classification_amended_witness :
    (StateNode.mk "a" "parallel" false none none none).type
      = (if tokHasType [(⟨"IDENTIFIER",1,1,some "a"⟩ : Token), ⟨"PARALLEL_STATE",1,2,none⟩,
            ⟨"FINAL_STATE",1,3,none⟩] (0+1) "PARALLEL_STATE" then "parallel"
         else if tokHasType [(⟨"IDENTIFIER",1,1,some "a"⟩ : Token), ⟨"PARALLEL_STATE",1,2,none⟩,
            ⟨"FINAL_STATE",1,3,none⟩] (0+1) "FINAL_STATE" then "final"
         else if (StateNode.mk "a" "parallel" false none none none).states.isNone
           then "atomic" else "compound") :=
  @claim4_state_type_classification_amended
    [⟨"IDENTIFIER",1,1,some "a"⟩, ⟨"PARALLEL_STATE",1,2,none⟩,
      ⟨"FINAL_STATE",1,3,none⟩]
    4 0 (StateNode.mk "a" "parallel" false none none none) 3 (by rfl)

end SketchSystems
